import Mathlib

/-!
Verification of the Platskarta interaction core: a shallow embedding of the
undo/redo history engine (`MapLayoutHistory`), the element addressing and
navigation scheme of `EditMenu` (`parseRef`, `getInputByRef`,
`getNextInputRef`), and the pointer hit-test dispatcher (`CollisionManager`).

Modelling conventions for the TypeScript/JavaScript source:
- A JavaScript value that may be a defined attribute value, `null`, or
  `undefined` is modelled by `JVal V` over an opaque value universe `V`.
- An array slot of the grid model (`MapLayout.cells`) is a `Slot V`:
  it holds a cell object, `null`, or an `undefined` hole (holes arise from
  out-of-bounds array writes, which in JavaScript extend the array).
- Reading `arr[i]` out of bounds yields `undefined`; writing out of bounds
  extends the array with `undefined` holes (`jsGet` / `jsSet`).
- A thrown `TypeError` (setting a property of `null`/`undefined`, or
  `JSON.parse(undefined)` inside `deepClone`) is modelled by a `Bool`
  "threw" flag in the operation result; the state returned alongside it is
  the state at the moment of the throw, since the exception propagates out
  of the method with all prior mutations retained.
- `console.error` reports are returned as a list of the message strings.
-/

/-- A JavaScript attribute value: `undefined`, `null`, or a defined value
drawn from an opaque universe `V` (the cell attribute payloads: strings,
cell-type enum values, style override objects). -/
inductive JVal (V : Type) where
  | undef : JVal V
  | null : JVal V
  | val (v : V) : JVal V
deriving DecidableEq

/-- The attribute keys of `PureCell` (`keyof PureCell` in the source):
`name`, `type`, `styleOverride`. -/
inductive Attr where
  | name | type | styleOverride
deriving DecidableEq

/-- A cell object (`PureCell` in `types.ts`). Statically `name` is an
optional string, `type` a `CellType` and `styleOverride` an optional
override object, but at runtime the history engine writes arbitrary
attribute payloads (including `undefined`) into any of the three keys, so
each field is a `JVal V`. -/
structure PureCell (V : Type) where
  name : JVal V
  type : JVal V
  styleOverride : JVal V
deriving DecidableEq

/-- Read one attribute of a cell object. -/
def getAttr (c : PureCell V) : Attr → JVal V
  | .name => c.name
  | .type => c.type
  | .styleOverride => c.styleOverride

/-- `cell[attribute] = v`. -/
def setAttr (c : PureCell V) : Attr → JVal V → PureCell V
  | .name, v => { c with name := v }
  | .type, v => { c with type := v }
  | .styleOverride, v => { c with styleOverride := v }

/-- One slot of the `cells` array: a cell object, `null` (an empty cell
slot per `Cell = PureCell | null`), or an `undefined` hole. -/
inductive Slot (V : Type) where
  | undef : Slot V
  | null : Slot V
  | cell (c : PureCell V) : Slot V
deriving DecidableEq

/-- Whether a slot holds a cell object. -/
def Slot.isCell : Slot V → Bool
  | .cell _ => true
  | _ => false

/-- The TypeScript `Cell` type (`PureCell | null`), as passed by callers to
the swap operations: `none` is `null`. -/
abbrev CellArg (V : Type) := Option (PureCell V)

/-- Injection of a `Cell` argument into an array slot. -/
def toSlot : CellArg V → Slot V
  | none => .null
  | some c => .cell c

/-- JavaScript array read `cells[i]`: `undefined` out of bounds. -/
def jsGet : List (Slot V) → Nat → Slot V
  | [], _ => .undef
  | s :: _, 0 => s
  | _ :: rest, n + 1 => jsGet rest n

/-- JavaScript array write `cells[i] = v`: in bounds it replaces the slot,
out of bounds it extends the array with `undefined` holes. -/
def jsSet (cells : List (Slot V)) (i : Nat) (v : Slot V) : List (Slot V) :=
  if i < cells.length then cells.set i v
  else cells ++ List.replicate (i - cells.length) .undef ++ [v]

/-- A history log entry (`MapLayoutHistoryEntry` in the source), storing
deep-cloned `was`/`became` payloads. -/
inductive MapLayoutHistoryEntry (V : Type) where
  | changeAttribute (index : Nat) (attr : Attr) (was became : JVal V)
  | changeAttributes (index : List Nat) (attr : Attr)
      (was became : List (JVal V))
  | swappedCell (index : Nat) (was became : CellArg V)
  | swappedCells (index : List Nat) (was became : List (CellArg V))
deriving DecidableEq

/-- The state of a `MapLayoutHistory` object: the shared grid model
(`mapLayout.cells`), the private history log, and the cursor `i`. -/
structure MapLayoutHistory (V : Type) where
  cells : List (Slot V)
  history : List (MapLayoutHistoryEntry V)
  i : Nat
deriving DecidableEq

namespace MapLayoutHistory

/-- `deepClone` (`JSON.parse(JSON.stringify(x))`) on a scalar attribute
payload: cloning `undefined` throws (`JSON.parse(undefined)` is a
`SyntaxError`), modelled by `none`; `null` and defined values survive. -/
def deepCloneJVal : JVal V → Option (JVal V)
  | .undef => none
  | v => some v

/-- `deepClone` on an element inside an array: `JSON.stringify` serialises
an `undefined` array element as `null`. -/
def deepCloneJValInArray : JVal V → JVal V
  | .undef => .null
  | v => v

/-- `deepClone` applied to the `was`/`became` payloads of an entry, as done
by `addHistoryEntry` (cell objects and `Cell` arrays round-trip through
JSON unchanged in this value model). `none` models a thrown exception. -/
def cloneEntry : MapLayoutHistoryEntry V → Option (MapLayoutHistoryEntry V)
  | .changeAttribute i a w b =>
    match deepCloneJVal w, deepCloneJVal b with
    | some w2, some b2 => some (.changeAttribute i a w2 b2)
    | _, _ => none
  | .changeAttributes i a ws bs =>
    some (.changeAttributes i a (ws.map deepCloneJValInArray)
      (bs.map deepCloneJValInArray))
  | .swappedCell i w b => some (.swappedCell i w b)
  | .swappedCells i ws bs => some (.swappedCells i ws bs)

/-- The truncation step of `addHistoryEntry` (`this.history.length =
this.i + 1` when the log is longer than `i + 1`), which runs before the
entry is cloned and pushed. -/
def truncatedHistory (s : MapLayoutHistory V) :
    List (MapLayoutHistoryEntry V) :=
  if s.history.length > s.i + 1 then s.history.take (s.i + 1) else s.history

/-- `addHistoryEntry`, after the truncation: push the entry with
deep-cloned payloads and set the cursor to the new log length; a clone
throw leaves the log truncated but nothing pushed and the cursor
unchanged. -/
def addHistoryEntry (s : MapLayoutHistory V) (e : MapLayoutHistoryEntry V) :
    MapLayoutHistory V × Bool :=
  match cloneEntry e with
  | none => ({ s with history := truncatedHistory s }, true)
  | some e2 =>
    ({ s with
        history := truncatedHistory s ++ [e2],
        i := (truncatedHistory s).length + 1 }, false)

/-- `changeAttribute(index, attribute, from, to)`: sets the attribute on
`cells[index]` (throwing when the slot is `null` or `undefined`, since the
source dereferences it unchecked), then logs the caller-supplied
`was`/`became` pair. -/
def changeAttribute (s : MapLayoutHistory V) (index : Nat) (attr : Attr)
    (fromv tov : JVal V) : MapLayoutHistory V × Bool :=
  match jsGet s.cells index with
  | .cell c =>
    addHistoryEntry
      { s with cells := s.cells.set index (.cell (setAttr c attr tov)) }
      (.changeAttribute index attr fromv tov)
  | _ => (s, true)

/-- The mutation loop of `changeAttributes`: for each position, set the
attribute of `cells[index[k]]` to `to[k]` (`undefined` when `to` is too
short); dereferencing a `null`/`undefined` slot throws, leaving the
mutations already made in place (`Bool` result `true`). -/
def changeAttributesLoop [DecidableEq V] (cells : List (Slot V))
    (idxs : List Nat) (a : Attr) (tos : List (JVal V)) :
    List (Slot V) × Bool :=
  match idxs with
  | [] => (cells, false)
  | idx :: rest =>
    match jsGet cells idx with
    | .cell c =>
      changeAttributesLoop
        (cells.set idx (.cell (setAttr c a (tos.headD .undef)))) rest a tos.tail
    | _ => (cells, true)

/-- `changeAttributes(index, attribute, from, to)`: run the mutation loop,
then (when it did not throw) log the caller-supplied parallel arrays. -/
def changeAttributes [DecidableEq V] (s : MapLayoutHistory V)
    (idxs : List Nat) (a : Attr) (froms tos : List (JVal V)) :
    MapLayoutHistory V × Bool :=
  if (changeAttributesLoop s.cells idxs a tos).2 then
    ({ s with cells := (changeAttributesLoop s.cells idxs a tos).1 }, true)
  else
    addHistoryEntry
      { s with cells := (changeAttributesLoop s.cells idxs a tos).1 }
      (.changeAttributes idxs a froms tos)

/-- `swapCell(index, from, to)`: write `to` into the slot wholesale, then
log the caller-supplied pair. Never throws. -/
def swapCell (s : MapLayoutHistory V) (index : Nat) (fromc toc : CellArg V) :
    MapLayoutHistory V × Bool :=
  addHistoryEntry { s with cells := jsSet s.cells index (toSlot toc) }
    (.swappedCell index fromc toc)

/-- The mutation loop of `swapCells`: write `deepClone(to[k])` into each
slot; when `to` is shorter than `index`, `deepClone(undefined)` throws with
the earlier writes retained. -/
def swapCellsLoop (cells : List (Slot V)) (idxs : List Nat)
    (tos : List (CellArg V)) : List (Slot V) × Bool :=
  match idxs with
  | [] => (cells, false)
  | idx :: rest =>
    match tos with
    | [] => (cells, true)
    | t :: ts => swapCellsLoop (jsSet cells idx (toSlot t)) rest ts

/-- `swapCells(index, from, to)`: run the write loop, then (when it did not
throw) log the caller-supplied parallel arrays. -/
def swapCells (s : MapLayoutHistory V) (idxs : List Nat)
    (froms tos : List (CellArg V)) : MapLayoutHistory V × Bool :=
  if (swapCellsLoop s.cells idxs tos).2 then
    ({ s with cells := (swapCellsLoop s.cells idxs tos).1 }, true)
  else
    addHistoryEntry { s with cells := (swapCellsLoop s.cells idxs tos).1 }
      (.swappedCells idxs froms tos)

/-- Report printed when `undo` finds no entry at the target position. -/
def undoMissingMsg : String :=
  "Cannot undo when no history entry is present for desired step."

/-- Report printed when an attribute write targets a missing cell. -/
def attrMissingMsg : String :=
  "Cannot change attribute on cell that doesn\x27t exist"

/-- Report printed when a batched undo reads an `undefined` `was` value. -/
def wasUndefMsg : String := "Cannot change attribute with undefined was."

/-- Report printed when `redo` finds no entry at the cursor. -/
def redoMissingMsg : String :=
  "Cannot redo when no history entry is present for desired step."

/-- The `changeAttributes` branch of `undo`: per position, a `null` slot
returns silently, an `undefined` slot returns with a report, otherwise the
`was` value (with a report when it is `undefined`) is written and the loop
continues. -/
def undoChangeAttributesLoop [DecidableEq V] (cells : List (Slot V))
    (idxs : List Nat) (a : Attr) (ws : List (JVal V)) :
    List (Slot V) × List String :=
  match idxs with
  | [] => (cells, [])
  | idx :: rest =>
    match jsGet cells idx with
    | .null => (cells, [])
    | .undef => (cells, [attrMissingMsg])
    | .cell c =>
      ((undoChangeAttributesLoop
          (cells.set idx (.cell (setAttr c a (ws.headD .undef)))) rest a
          ws.tail).1,
        (if ws.headD .undef = JVal.undef then [wasUndefMsg] else []) ++
          (undoChangeAttributesLoop
            (cells.set idx (.cell (setAttr c a (ws.headD .undef)))) rest a
            ws.tail).2)

/-- The write loop shared by the `swappedCells` branches of `undo` and
`redo`: `cells[index[k]] = vals[k]` for every position, where an
out-of-range read of `vals` yields `undefined`. -/
def writeCellsLoop (cells : List (Slot V)) (idxs : List Nat)
    (vals : List (CellArg V)) : List (Slot V) :=
  match idxs with
  | [] => cells
  | idx :: rest =>
    let v := match vals with
      | [] => Slot.undef
      | c :: _ => toSlot c
    writeCellsLoop (jsSet cells idx v) rest vals.tail

/-- Application of one history entry's `was` side to the grid model, as
performed by `undo` after positioning the cursor. -/
def undoApplyEntry [DecidableEq V] (cells : List (Slot V)) :
    MapLayoutHistoryEntry V → List (Slot V) × List String
  | .swappedCell idx w _ => (jsSet cells idx (toSlot w), [])
  | .changeAttribute idx a w _ =>
    match jsGet cells idx with
    | .cell c => (cells.set idx (.cell (setAttr c a w)), [])
    | _ => (cells, [attrMissingMsg])
  | .changeAttributes idxs a ws _ => undoChangeAttributesLoop cells idxs a ws
  | .swappedCells idxs ws _ => (writeCellsLoop cells idxs ws, [])

/-- The cursor positioning of `undo()`: decrement unless already `0`. -/
def undoCursor (s : MapLayoutHistory V) : Nat :=
  if s.i ≠ 0 then s.i - 1 else s.i

/-- `undo()`, after the cursor adjustment: write the `was` side of the
entry at the new cursor back into the model. -/
def undo [DecidableEq V] (s : MapLayoutHistory V) :
    MapLayoutHistory V × List String :=
  if s.history.length = 0 then (s, [])
  else
    match s.history.get? (undoCursor s) with
    | none => ({ s with i := undoCursor s }, [undoMissingMsg])
    | some e =>
      ({ s with i := undoCursor s, cells := (undoApplyEntry s.cells e).1 },
        (undoApplyEntry s.cells e).2)

/-- Outcome of the `changeAttributes` branch of `redo`: completed (cursor
advances), stopped silently at a `null` slot (cursor does not advance), or
threw on an `undefined` slot. -/
inductive RedoLoopRes (V : Type) where
  | done (cells : List (Slot V))
  | stop (cells : List (Slot V))
  | threw (cells : List (Slot V))

/-- The `changeAttributes` branch of `redo`: per position, `null` returns
silently keeping prior writes, `undefined` throws, otherwise `became[k]`
is written. -/
def redoChangeAttributesLoop [DecidableEq V] (cells : List (Slot V))
    (idxs : List Nat) (a : Attr) (bs : List (JVal V)) : RedoLoopRes V :=
  match idxs with
  | [] => .done cells
  | idx :: rest =>
    match jsGet cells idx with
    | .null => .stop cells
    | .undef => .threw cells
    | .cell c =>
      redoChangeAttributesLoop
        (cells.set idx (.cell (setAttr c a (bs.headD .undef)))) rest a bs.tail

/-- Application of one history entry's `became` side, as performed by
`redo` for the entry found at the cursor: the entry's new values are
written into the model and the cursor incremented, except that the
`changeAttribute(s)` branches skip the increment when they return early on
a `null` slot and throw on an `undefined` slot. -/
def redoApplyEntry [DecidableEq V] (s : MapLayoutHistory V) :
    MapLayoutHistoryEntry V → MapLayoutHistory V × Bool × List String
  | .swappedCell idx _ b =>
    ({ s with cells := jsSet s.cells idx (toSlot b), i := s.i + 1 },
      false, [])
  | .changeAttribute idx a _ b =>
    match jsGet s.cells idx with
    | .null => (s, false, [])
    | .undef => (s, true, [])
    | .cell c =>
      ({ s with
          cells := s.cells.set idx (.cell (setAttr c a b)),
          i := s.i + 1 }, false, [])
  | .changeAttributes idxs a _ bs =>
    match redoChangeAttributesLoop s.cells idxs a bs with
    | .done cells2 => ({ s with cells := cells2, i := s.i + 1 }, false, [])
    | .stop cells2 => ({ s with cells := cells2 }, false, [])
    | .threw cells2 => ({ s with cells := cells2 }, true, [])
  | .swappedCells idxs _ bs =>
    ({ s with cells := writeCellsLoop s.cells idxs bs, i := s.i + 1 },
      false, [])

/-- `redo()`: a silent no-op on an empty log; a reported no-op when no
entry exists at the cursor; otherwise the entry at the cursor is applied by
`redoApplyEntry`. Result: state, threw flag, reports. -/
def redo [DecidableEq V] (s : MapLayoutHistory V) :
    MapLayoutHistory V × Bool × List String :=
  if s.history.length = 0 then (s, false, [])
  else
    match s.history.get? s.i with
    | none => (s, false, [redoMissingMsg])
    | some e => redoApplyEntry s e

end MapLayoutHistory

/-!
Element addressing and navigation (`EditMenu.parseRef`,
`EditMenu.getInputByRef`, `EditMenu.getNextInputRef`).
-/

/-- An element descriptor (`EditMenuElement` in `types.ts`): a label plus a
tagged variant. The `button` variant's function-valued `action` and the
interaction-irrelevant payloads are omitted because none of the addressing
functions read them; only the `type` tag, a group's `elements` list and the
positions matter. -/
inductive EditMenuElement where
  | input (label : String) (value : String)
  | button (label : String)
  | checkbox (label : String) (value : String)
  | labelEl (label : String)
  | hselect (label : String) (options : List String)
  | group (label : String) (elements : List EditMenuElement)

/-- `element.type === "input"`. -/
def EditMenuElement.isInput : EditMenuElement → Bool
  | .input _ _ => true
  | _ => false

/-- The result of `parseRef`: `{ groupIndex, itemIndex, controlSymbol }`.
The control symbol is the one-character string `"-"` or `"+"`, modelled as
the character. -/
structure ParsedRef where
  groupIndex : Option Int
  itemIndex : Int
  controlSymbol : Option Char
deriving DecidableEq

namespace EditMenu

/-- Strings handled by the addressing functions, modelled as character
lists so that every operation is structurally recursive. -/
abbrev JSStr := List Char

/-- Numeric value of a digit run (the `parseInt` applied to a `\x5cd+`
regex capture). -/
def digitsToNat (s : JSStr) : Nat :=
  s.foldl (fun n c => n * 10 + (c.toNat - 48)) 0

/-- JavaScript whitespace accepted by `parseInt` before the number. -/
def isJsSpace (c : Char) : Bool :=
  c = ' ' || c = '\t' || c = '\n' || c = '\r'

/-- Helper for `parseIntJS`: value of the leading digit run, `none` when
there is no leading digit. -/
def parseDecimalPrefix (cs : JSStr) : Option Nat :=
  let ds := cs.takeWhile Char.isDigit
  if ds = [] then none else some (digitsToNat ds)

/-- Helper for `parseIntJS`: value of a leading hexadecimal digit run. -/
def parseHexPrefix (cs : JSStr) : Option Nat :=
  let ds := cs.takeWhile (fun c => c.isDigit ||
    ('a' ≤ c && c ≤ 'f') || ('A' ≤ c && c ≤ 'F'))
  if ds = [] then none
  else some (ds.foldl (fun n c =>
    n * 16 + (if c.isDigit then c.toNat - 48
      else if 'a' ≤ c then c.toNat - 87 else c.toNat - 55)) 0)

/-- JavaScript `parseInt(s)` with no radix argument: skip leading
whitespace, take an optional sign, then read a leading `0x`/`0X`
hexadecimal or decimal digit run, ignoring any trailing junk; `none`
models `NaN` (no digits at all). -/
def parseIntJS (s : JSStr) : Option Int :=
  let cs := s.dropWhile isJsSpace
  let signed : Int × JSStr :=
    match cs with
    | '-' :: rest => (-1, rest)
    | '+' :: rest => (1, rest)
    | _ => (1, cs)
  match signed.2 with
  | '0' :: c :: rest =>
    if c = 'x' || c = 'X' then (parseHexPrefix rest).map fun n => signed.1 * n
    else (parseDecimalPrefix signed.2).map fun n => signed.1 * n
  | _ => (parseDecimalPrefix signed.2).map fun n => signed.1 * n

/-- The control-symbol stripping prefix of `parseRef`: when the ref ends in
`-` or `+`, remember that last character (`ref.slice(-1)`) and drop it
(`ref.slice(0, -1)`). -/
def stripControl (ref : JSStr) : Option Char × JSStr :=
  match ref.getLast? with
  | some c => if c = '-' || c = '+' then (some c, ref.dropLast) else (none, ref)
  | none => (none, ref)

/-- `String.prototype.split` on the single-character separator `_`. -/
def splitOnChar (sep : Char) : JSStr → List JSStr
  | [] => [[]]
  | c :: rest =>
    let r := splitOnChar sep rest
    if c = sep then [] :: r
    else
      match r with
      | h :: t => (c :: h) :: t
      | [] => [[c]]

/-- `EditMenu.parseRef(ref)`. After control-symbol stripping: a ref
containing `_` must match the regex `^(\x5cd+)_(\x5cd+)$` (modelled as
splitting on `_` yielding exactly two nonempty all-digit parts, equivalent
because a digit run contains no underscore); otherwise the whole ref goes
through `parseInt`, and `NaN` yields `null`. -/
def parseRef (ref : JSStr) : Option ParsedRef :=
  let sc := stripControl ref
  if sc.2.contains '_' then
    match splitOnChar '_' sc.2 with
    | [a, b] =>
      if a ≠ [] && b ≠ [] && a.all Char.isDigit && b.all Char.isDigit then
        some ⟨some (digitsToNat a), digitsToNat b, sc.1⟩
      else none
    | _ => none
  else
    match parseIntJS sc.2 with
    | some n => some ⟨none, n, sc.1⟩
    | none => none

/-- JavaScript array read `l[i]` with a signed index: negative indices (and
out-of-range ones) yield `undefined`, here `none`. -/
def listAtInt (l : List α) (i : Int) : Option α :=
  if 0 ≤ i then l.get? i.toNat else none

/-- `EditMenu.getInputByRef(ref)`: resolve a parsed ref against the element
list; a top-level ref indexes `elements` directly, a grouped ref requires
the element at `groupIndex` to be a group and indexes its `elements`. Both
`null` and `undefined` results are `none`. -/
def getInputByRef (elements : List EditMenuElement) (ref : JSStr) :
    Option EditMenuElement :=
  match parseRef ref with
  | none => none
  | some pr =>
    match pr.groupIndex with
    | none => listAtInt elements pr.itemIndex
    | some g =>
      match listAtInt elements g with
      | some (EditMenuElement.group _ es) => listAtInt es pr.itemIndex
      | _ => none

/-- Map with the element's position, starting at `n` (the callback index of
`Array.prototype.map`). -/
def mapIdxFrom (f : Nat → α → β) : Nat → List α → List β
  | _, [] => []
  | n, x :: xs => f n x :: mapIdxFrom f (n + 1) xs

/-- Decimal digits of a number (`i.toString()` for the array indices used
as refs), via a structural fuel argument. -/
def natToCharsAux : Nat → Nat → JSStr → JSStr
  | 0, _, acc => acc
  | fuel + 1, n, acc =>
    let d := Char.ofNat (48 + n % 10)
    if n < 10 then d :: acc else natToCharsAux fuel (n / 10) (d :: acc)

/-- `i.toString()` for a nonnegative integer index. -/
def natToChars (n : Nat) : JSStr := natToCharsAux (n + 1) n []

/-- The comparator passed to `allRefs.sort` in `getNextInputRef`: compares
parsed refs, mixing `itemIndex` of top-level refs with `groupIndex` of
grouped refs, and returning `0` (a tie) for two grouped refs and for any
unparsable ref. -/
def cmpRefs (a b : JSStr) : Int :=
  match parseRef a, parseRef b with
  | some ai, some bi =>
    match ai.groupIndex, bi.groupIndex with
    | none, none => ai.itemIndex - bi.itemIndex
    | none, some bg => ai.itemIndex - bg
    | some ag, none => ag - bi.itemIndex
    | some _, some _ => 0
  | _, _ => 0

/-- Insert an element into a sorted list, after every element it does not
strictly precede — the placement a stable sort gives a later-arriving
element. -/
def insertSorted (cmp : JSStr → JSStr → Int) (x : JSStr) :
    List JSStr → List JSStr
  | [] => [x]
  | y :: ys => if cmp x y < 0 then x :: y :: ys else y :: insertSorted cmp x ys

/-- `Array.prototype.sort(cmp)`: stable (ECMAScript 2019), modelled as a
left-to-right insertion sort that keeps earlier elements before ties. -/
def sortStable (cmp : JSStr → JSStr → Int) (l : List JSStr) : List JSStr :=
  l.foldl (fun acc x => insertSorted cmp x acc) []

/-- The final scan of `getNextInputRef`: find the first list position whose
ref equals the argument and return the following one, or the supplied wrap
value (`allRefs[0]`) when the match is last; `none` when no position
matches. -/
def findNextLoop (wrap : Option JSStr) : List JSStr → JSStr → Option JSStr
  | [], _ => none
  | [x], ref => if x = ref then wrap else none
  | x :: y :: rest, ref =>
    if x = ref then some y else findNextLoop wrap (y :: rest) ref

/-- `EditMenu.getNextInputRef(ref)`. `availableRefs` stringifies the
callback index of `map` applied to the *filtered* input elements (not the
position in the full element list); `groupedRefs` collects
`"<position>_<subindex>"` for every group in the full list (the source
marks non-groups with `""` and filters the marks out before flattening,
modelled by mapping non-groups to `[]`); the concatenation is sorted with
`cmpRefs` and scanned for the ref. -/
def getNextInputRef (elements : List EditMenuElement) (ref : JSStr) :
    Option JSStr :=
  match parseRef ref with
  | none => none
  | some _ =>
    let availableRefs := mapIdxFrom (fun i _ => natToChars i) 0
      (elements.filter EditMenuElement.isInput)
    let groupedRefs := mapIdxFrom (fun i el =>
      match el with
      | .group _ es =>
        mapIdxFrom (fun j _ => natToChars i ++ '_' :: natToChars j) 0 es
      | _ => []) 0 elements
    let allRefs := sortStable cmpRefs (availableRefs ++ groupedRefs.flatten)
    findNextLoop allRefs.head? allRefs ref

end EditMenu

/-!
The pointer hit-test dispatcher (`CollisionManager` and its
`mousedown`/`mousemove`/`mouseup` handlers and `leftClick`).
Pointer coordinates are modelled as integers. The four listener lists are
append-only and every listener of a kind receives the same sequence of
invocations, so an output records, per kind, the list of invocations
delivered to each registered listener of that kind.
-/

/-- A hit-test region (`Collision<ref>` in `types.ts`); `none` models the
`-1` sentinel reference. -/
structure Collision (R : Type) where
  x : Int
  y : Int
  width : Int
  height : Int
  reference : Option R
deriving DecidableEq

/-- The sentinel "no region" collision passed to hover listeners when
nothing is hovered. -/
def noCollision (R : Type) : Collision R := ⟨-1, -1, 0, 0, none⟩

/-- Mouse buttons are the numeric `event.button` / `MouseButtons` enum
values; the left button is `0`. The numeric values never influence the
dispatch logic. -/
abbrev MouseButton := Nat

/-- `MouseButtons.LEFT`. -/
def MouseButtonsLEFT : MouseButton := 0

/-- The mutable state of a `CollisionManager`: the registered regions, the
drag anchor (`drag.start`) and most recent (`drag.latest`) positions, the
held-button list, and the two cached match lists. -/
structure CollisionManager (R : Type) where
  collisions : List (Collision R)
  dragStartX : Int
  dragStartY : Int
  dragLatestX : Int
  dragLatestY : Int
  mouseButtonsDown : List MouseButton
  activeHoverCollisions : List (Collision R)
  activeClickCollisions : List (Collision R)
deriving DecidableEq

/-- Listener invocations produced by one pointer event: `(collision,
buttons)` payloads for click and hover listeners, `(diffX, diffY, buttons)`
payloads for drag and drag-end listeners. -/
structure PointerOutput (R : Type) where
  clicks : List (Collision R × List MouseButton)
  hovers : List (Collision R × List MouseButton)
  drags : List (Int × Int × List MouseButton)
  dragends : List (Int × Int × List MouseButton)
deriving DecidableEq

namespace CollisionManager

/-- A freshly constructed `CollisionManager`: field initialisers give empty
lists and zero drag coordinates. -/
def init (R : Type) : CollisionManager R := ⟨[], 0, 0, 0, 0, [], [], []⟩

/-- `registerCollisions(collisions)`: wholesale replacement of the region
list. -/
def registerCollisions (s : CollisionManager R)
    (collisions : List (Collision R)) : CollisionManager R :=
  { s with collisions := collisions }

/-- `addEventListener` only appends to a listener list and is immaterial to
the dispatch state; the containment predicate of the `mousemove` hover
filter. -/
def hoverContains (c : Collision R) (offsetX offsetY : Int) : Bool :=
  decide (c.x ≤ offsetX) && decide (c.x + c.width ≥ offsetX) &&
    decide (c.y ≤ offsetY) && decide (c.y + c.height ≥ offsetY)

/-- The containment predicate of the `mouseup` click filter. -/
def clickContains (c : Collision R) (offsetX offsetY : Int) : Bool :=
  decide (c.x ≤ offsetX) && decide (c.x + c.width ≥ offsetX) &&
    decide (c.y ≤ offsetY) && decide (c.y + c.height ≥ offsetY)

/-- The containment predicate of the `leftClick` filter. -/
def leftClickContains (c : Collision R) (x y : Int) : Bool :=
  decide (c.x ≤ x) && decide (c.x + c.width ≥ x) &&
    decide (c.y ≤ y) && decide (c.y + c.height ≥ y)

/-- The `mousedown` handler: record anchor and latest position, add the
button to the held set unless already present. No listeners fire. -/
def mousedown (s : CollisionManager R) (button : MouseButton)
    (offsetX offsetY : Int) : CollisionManager R :=
  { s with
      dragLatestX := offsetX, dragLatestY := offsetY,
      dragStartX := offsetX, dragStartY := offsetY,
      mouseButtonsDown :=
        if s.mouseButtonsDown.contains button then s.mouseButtonsDown
        else s.mouseButtonsDown ++ [button] }

/-- The `mousemove` handler: when the position moved, drag listeners fire
with the delta from `latest` (before `latest` is updated); then the hovered
set is recomputed and hover listeners fire once per hovered region, or once
with the sentinel when the set is empty. -/
def mousemove (s : CollisionManager R) (offsetX offsetY : Int) :
    CollisionManager R × PointerOutput R :=
  let drags :=
    if offsetX ≠ s.dragLatestX ∨ offsetY ≠ s.dragLatestY then
      [(offsetX - s.dragLatestX, offsetY - s.dragLatestY, s.mouseButtonsDown)]
    else []
  let hoverSet := s.collisions.filter (hoverContains · offsetX offsetY)
  let hovers :=
    if hoverSet.length = 0 then [(noCollision R, s.mouseButtonsDown)]
    else hoverSet.map ((·, s.mouseButtonsDown))
  ({ s with
      dragLatestX := offsetX, dragLatestY := offsetY,
      activeHoverCollisions := hoverSet },
    ⟨[], hovers, drags, []⟩)

/-- The `mouseup` handler: when the release position equals the anchor the
clicked set is the containing regions, otherwise it is empty; click
listeners fire once per member, and when the clicked set is empty drag-end
listeners fire with the delta from `latest`; finally the button leaves the
held set (first occurrence removed) and the cached clicked set is cleared.
`latest` is not updated. -/
def mouseup (s : CollisionManager R) (button : MouseButton)
    (offsetX offsetY : Int) : CollisionManager R × PointerOutput R :=
  let clickSet :=
    if offsetX = s.dragStartX ∧ offsetY = s.dragStartY then
      s.collisions.filter (clickContains · offsetX offsetY)
    else []
  let clicks := clickSet.map ((·, s.mouseButtonsDown))
  let dragends :=
    if clickSet.length = 0 then
      [(offsetX - s.dragLatestX, offsetY - s.dragLatestY, s.mouseButtonsDown)]
    else []
  ({ s with
      activeClickCollisions := [],
      mouseButtonsDown := s.mouseButtonsDown.erase button },
    ⟨clicks, [], [], dragends⟩)

/-- `leftClick(x, y)`: programmatic click against the same containment
test, with an implicit left-button payload; the matched set stays cached in
`activeClickCollisions`. -/
def leftClick (s : CollisionManager R) (x y : Int) :
    CollisionManager R × PointerOutput R :=
  let clickSet := s.collisions.filter (leftClickContains · x y)
  ({ s with activeClickCollisions := clickSet },
    ⟨clickSet.map ((·, [MouseButtonsLEFT])), [], [], []⟩)

end CollisionManager

/-!
Basic lemmas about the JavaScript array and cell-object operations.
-/

theorem jsGet_set_self {V : Type} (l : List (Slot V)) (i : Nat) (v : Slot V)
    (h : i < l.length) : jsGet (l.set i v) i = v := by
  induction l generalizing i with
  | nil => simp at h
  | cons a as ih =>
    cases i with
    | zero => rfl
    | succ n => exact ih n (Nat.lt_of_succ_lt_succ h)

theorem jsGet_set_ne {V : Type} (l : List (Slot V)) (i p : Nat) (v : Slot V)
    (h : p ≠ i) : jsGet (l.set i v) p = jsGet l p := by
  induction l generalizing i p with
  | nil => rfl
  | cons a as ih =>
    cases i with
    | zero =>
      cases p with
      | zero => exact absurd rfl h
      | succ m => rfl
    | succ n =>
      cases p with
      | zero => rfl
      | succ m => exact ih n m (fun hc => h (by rw [hc]))

theorem lt_length_of_jsGet_cell {V : Type} {l : List (Slot V)} {i : Nat}
    {c : PureCell V} (h : jsGet l i = .cell c) : i < l.length := by
  induction l generalizing i with
  | nil => exact absurd h (by simp [jsGet])
  | cons a as ih =>
    cases i with
    | zero => simp
    | succ n => exact Nat.succ_lt_succ (ih h)

theorem set_jsGet_self {V : Type} (l : List (Slot V)) (i : Nat)
    (h : i < l.length) : l.set i (jsGet l i) = l := by
  induction l generalizing i with
  | nil => rfl
  | cons a as ih =>
    cases i with
    | zero => rfl
    | succ n => simpa [jsGet] using congrArg (a :: ·) (ih n (Nat.lt_of_succ_lt_succ h))

theorem set_set_self {V : Type} (l : List (Slot V)) (i : Nat) (v w : Slot V) :
    (l.set i v).set i w = l.set i w := by
  induction l generalizing i with
  | nil => rfl
  | cons a as ih =>
    cases i with
    | zero => rfl
    | succ n => exact congrArg (a :: ·) (ih n)

theorem jsSet_eq_set {V : Type} (l : List (Slot V)) (i : Nat) (v : Slot V)
    (h : i < l.length) : jsSet l i v = l.set i v := by
  simp [jsSet, h]

theorem eq_of_jsGet_eq {V : Type} (l l2 : List (Slot V))
    (hlen : l.length = l2.length) (h : ∀ p, jsGet l p = jsGet l2 p) :
    l = l2 := by
  induction l generalizing l2 with
  | nil => cases l2 with
    | nil => rfl
    | cons b bs => simp at hlen
  | cons a as ih =>
    cases l2 with
    | nil => simp at hlen
    | cons b bs =>
      have h0 : a = b := h 0
      have ht : as = bs := ih bs (by simpa using hlen) (fun p => h (p + 1))
      rw [h0, ht]

theorem setAttr_setAttr {V : Type} (c : PureCell V) (a : Attr) (u v : JVal V) :
    setAttr (setAttr c a u) a v = setAttr c a v := by
  cases a <;> rfl

theorem getAttr_setAttr {V : Type} (c : PureCell V) (a : Attr) (v : JVal V) :
    getAttr (setAttr c a v) a = v := by
  cases a <;> rfl

theorem setAttr_getAttr_self {V : Type} (c : PureCell V) (a : Attr) :
    setAttr c a (getAttr c a) = c := by
  obtain ⟨n, t, st⟩ := c
  cases a <;> rfl

theorem length_changeAttributesLoop {V : Type} [DecidableEq V]
    (idxs : List Nat) (cells : List (Slot V)) (a : Attr)
    (tos : List (JVal V)) :
    (MapLayoutHistory.changeAttributesLoop cells idxs a tos).1.length =
      cells.length := by
  induction idxs generalizing cells tos with
  | nil => rfl
  | cons idx rest ih =>
    unfold MapLayoutHistory.changeAttributesLoop
    cases hj : jsGet cells idx with
    | undef => rfl
    | null => rfl
    | cell c =>
      rw [ih (cells.set idx (Slot.cell (setAttr c a (tos.headD JVal.undef)))) tos.tail]
      exact List.length_set ..

/-!
Claims about the hit-test dispatcher and the addressing scheme.
-/

/-- The spec example region `{x:10, y:10, w:20, h:10}`. -/
def exampleRegion : Collision Unit := ⟨10, 10, 20, 10, none⟩

/-- C7: hover dispatch, click dispatch and `leftClick` use one and the same
closed-interval containment test: a point `(px, py)` hits a region
`(x, y, w, h)` iff `x ≤ px ≤ x + w` and `y ≤ py ≤ y + h`; on the example
region `{x:10, y:10, w:20, h:10}` the points `(10,10)`, `(30,20)`, `(20,15)`
are contained while `(9,15)` and `(20,21)` are not. -/
theorem claim7_hit_test_containment :
    (∀ (R : Type) (c : Collision R) (px py : Int),
      CollisionManager.hoverContains c px py =
        CollisionManager.clickContains c px py
      ∧ CollisionManager.hoverContains c px py =
        CollisionManager.leftClickContains c px py
      ∧ (CollisionManager.hoverContains c px py = true ↔
          (c.x ≤ px ∧ px ≤ c.x + c.width ∧ c.y ≤ py ∧ py ≤ c.y + c.height)))
    ∧ CollisionManager.hoverContains exampleRegion 10 10 = true
    ∧ CollisionManager.hoverContains exampleRegion 30 20 = true
    ∧ CollisionManager.hoverContains exampleRegion 20 15 = true
    ∧ CollisionManager.hoverContains exampleRegion 9 15 = false
    ∧ CollisionManager.hoverContains exampleRegion 20 21 = false := by
  refine ⟨fun R c px py => ⟨rfl, rfl, ?_⟩, by decide, by decide, by decide,
    by decide, by decide⟩
  simp [CollisionManager.hoverContains, and_assoc, ge_iff_le]

/-- C6 counterexample: a `down` at `(5,5)` followed by `up` at `(5,5)` with
no containing region invokes the drag-end listeners (with delta `(0,0)`)
even though the release position equals the anchor, contradicting both the
claimed iff (release must differ from the anchor for drag-end) and the
claim that an anchor-equal release never invokes drag-end. -/
theorem claim6_counterexample :
    (CollisionManager.mouseup
      (CollisionManager.mousedown (CollisionManager.init Nat) 0 5 5)
      0 5 5).2.dragends = [(0, 0, [0])]
    ∧ (CollisionManager.mouseup
      (CollisionManager.mousedown (CollisionManager.init Nat) 0 5 5)
      0 5 5).2.clicks = []
    ∧ (CollisionManager.mousedown (CollisionManager.init Nat) 0 5 5).dragStartX = 5
    ∧ (CollisionManager.mousedown (CollisionManager.init Nat) 0 5 5).dragStartY = 5 := by
  decide

theorem mouseup_anchor_eq {R : Type} (s : CollisionManager R)
    (button : MouseButton) {x y : Int}
    (h : x = s.dragStartX ∧ y = s.dragStartY) :
    CollisionManager.mouseup s button x y =
      ({ s with
          activeClickCollisions := [],
          mouseButtonsDown := s.mouseButtonsDown.erase button },
        ⟨(s.collisions.filter (CollisionManager.clickContains · x y)).map
            ((·, s.mouseButtonsDown)), [], [],
          if (s.collisions.filter
              (CollisionManager.clickContains · x y)).length = 0 then
            [(x - s.dragLatestX, y - s.dragLatestY, s.mouseButtonsDown)]
          else []⟩) := by
  unfold CollisionManager.mouseup
  rw [if_pos h]

theorem mouseup_anchor_ne {R : Type} (s : CollisionManager R)
    (button : MouseButton) {x y : Int}
    (h : ¬(x = s.dragStartX ∧ y = s.dragStartY)) :
    CollisionManager.mouseup s button x y =
      ({ s with
          activeClickCollisions := [],
          mouseButtonsDown := s.mouseButtonsDown.erase button },
        ⟨[], [], [],
          [(x - s.dragLatestX, y - s.dragLatestY, s.mouseButtonsDown)]⟩) := by
  unfold CollisionManager.mouseup
  rw [if_neg h]
  rfl

/-- C6 as amended: on `mouseup`, drag-end listeners are invoked iff the
clicked set is empty, where the clicked set is the containing regions when
the release equals the anchor and empty otherwise; so drag-end fires
exactly when the release differs from the anchor or no region contains the
release point. Click listeners fire once per containing region when the
release equals the anchor, and never otherwise. The spec's drag scenario
(down `(5,5)`, move to `(8,5)`, up at `(8,5)`) fires one drag during the
move and one drag-end with no click on release. -/
theorem claim6_click_drag_discrimination (R : Type) [DecidableEq R]
    (s : CollisionManager R) (button : MouseButton) (x y : Int) :
    ((CollisionManager.mouseup s button x y).2.dragends ≠ [] ↔
      (¬(x = s.dragStartX ∧ y = s.dragStartY) ∨
        s.collisions.filter (CollisionManager.clickContains · x y) = []))
    ∧ ((x = s.dragStartX ∧ y = s.dragStartY) →
        (CollisionManager.mouseup s button x y).2.clicks =
          (s.collisions.filter (CollisionManager.clickContains · x y)).map
            ((·, s.mouseButtonsDown))
        ∧ (s.collisions.filter (CollisionManager.clickContains · x y) ≠ [] →
            (CollisionManager.mouseup s button x y).2.dragends = []))
    ∧ (¬(x = s.dragStartX ∧ y = s.dragStartY) →
        (CollisionManager.mouseup s button x y).2.clicks = []
        ∧ (CollisionManager.mouseup s button x y).2.dragends =
          [(x - s.dragLatestX, y - s.dragLatestY, s.mouseButtonsDown)])
    ∧ ((CollisionManager.mousemove
        (CollisionManager.mousedown (CollisionManager.init Nat) 0 5 5)
        8 5).2.drags = [(3, 0, [0])]
      ∧ (CollisionManager.mouseup
        ((CollisionManager.mousemove
          (CollisionManager.mousedown (CollisionManager.init Nat) 0 5 5)
          8 5).1) 0 8 5).2.clicks = []
      ∧ (CollisionManager.mouseup
        ((CollisionManager.mousemove
          (CollisionManager.mousedown (CollisionManager.init Nat) 0 5 5)
          8 5).1) 0 8 5).2.dragends = [(0, 0, [0])]) := by
  refine ⟨?_, ?_, ?_, by decide, by decide, by decide⟩
  · by_cases hpos : x = s.dragStartX ∧ y = s.dragStartY
    · rw [mouseup_anchor_eq s button hpos]
      by_cases hset :
          s.collisions.filter (CollisionManager.clickContains · x y) = []
      · simp [hset, hpos]
      · simp [List.length_eq_zero, hset, hpos]
    · rw [mouseup_anchor_ne s button hpos]
      simp [hpos]
  · intro hpos
    rw [mouseup_anchor_eq s button hpos]
    refine ⟨rfl, fun hset => ?_⟩
    simp [List.length_eq_zero, hset]
  · intro hpos
    rw [mouseup_anchor_ne s button hpos]
    exact ⟨rfl, rfl⟩

/-- C6 witness: the amended discrimination at a concrete state — a region
containing the anchor-equal release point yields one click and no
drag-end. -/
theorem claim6_witness :
    (CollisionManager.mouseup
      (CollisionManager.registerCollisions
        (CollisionManager.mousedown (CollisionManager.init Nat) 0 5 5)
        [⟨0, 0, 10, 10, some 3⟩]) 0 5 5).2.clicks =
        [(⟨0, 0, 10, 10, some 3⟩, [0])]
    ∧ (CollisionManager.mouseup
      (CollisionManager.registerCollisions
        (CollisionManager.mousedown (CollisionManager.init Nat) 0 5 5)
        [⟨0, 0, 10, 10, some 3⟩]) 0 5 5).2.dragends = [] := by
  have h := claim6_click_drag_discrimination Nat
    (CollisionManager.registerCollisions
      (CollisionManager.mousedown (CollisionManager.init Nat) 0 5 5)
      [⟨0, 0, 10, 10, some 3⟩]) 0 5 5
  have h2 := h.2.1 (by constructor <;> rfl)
  exact ⟨by rw [h2.1]; decide, h2.2 (by decide)⟩

/-- The spec's navigation example tree: input elements at top-level
positions 0 and 2 and a group at position 1 holding two input leaves. -/
def navExampleElements : List EditMenuElement :=
  [.input "" "a", .group "" [.input "" "g0", .input "" "g1"], .input "" "b"]

/-- C5: on the spec's example tree the code emits top-level refs numbered
by the position in the *filtered* input list, so `next("0")` returns `"1"`
(which resolves to the group at position 1, not to the input at position
2), `next("2")` returns none because the true position `"2"` never appears
in the enumeration, and the traversal runs `0 → 1 → 1_0 → 1_1 → 0` instead
of the claimed `0 → 2 → 1_0 → 1_1 → 0`. -/
theorem claim5_navigation_order :
    EditMenu.getNextInputRef navExampleElements "0".toList = some "1".toList
    ∧ EditMenu.getNextInputRef navExampleElements "2".toList = none
    ∧ EditMenu.getNextInputRef navExampleElements "1".toList =
        some "1_0".toList
    ∧ EditMenu.getNextInputRef navExampleElements "1_0".toList =
        some "1_1".toList
    ∧ EditMenu.getNextInputRef navExampleElements "1_1".toList =
        some "0".toList
    ∧ EditMenu.getInputByRef navExampleElements "1".toList =
        some (.group "" [.input "" "g0", .input "" "g1"]) := by
  exact ⟨by decide, by decide, by decide, by decide, by decide, rfl⟩

/-- When a separator character does not occur in a list, splitting on it
returns the singleton of the whole list. -/
theorem splitOnChar_of_not_contains (sep : Char) (l : EditMenu.JSStr)
    (h : l.contains sep = false) : EditMenu.splitOnChar sep l = [l] := by
  induction l with
  | nil => rfl
  | cons c rest ih =>
    have h2 : ¬sep = c ∧ sep ∉ rest := by simpa using h
    have hrest : rest.contains sep = false := by simpa using h2.2
    unfold EditMenu.splitOnChar
    rw [ih hrest, if_neg (fun hcc => h2.1 hcc.symm)]

/-- C8 counterexample: the address `"1a"` has a non-numeric item part, yet
`parseRef` accepts it via `parseInt` prefix parsing (item index 1) and
`getInputByRef` resolves it to the element at position 1 instead of
returning none. -/
theorem claim8_counterexample :
    EditMenu.parseRef "1a".toList = some ⟨none, 1, none⟩
    ∧ EditMenu.getInputByRef navExampleElements "1a".toList =
        some (.group "" [.input "" "g0", .input "" "g1"]) := by
  exact ⟨by decide, rfl⟩

/-- C8 as amended: `parseRef`, `getInputByRef` and `getNextInputRef` are
total (never throw); any address whose control-symbol-stripped form splits
on `_` into three or more parts (wrong separator count, e.g. `"1_2_3"`,
`"1__2"`) resolves to none through every entry point, and `"_5"` resolves
to none; but a top-level item part is parsed with `parseInt` leading-prefix
semantics, so `"1a"` resolves to item index 1 rather than none. -/
theorem claim8_malformed_addresses :
    (∀ (ref a b c : EditMenu.JSStr) (rest : List EditMenu.JSStr),
      EditMenu.splitOnChar '_' (EditMenu.stripControl ref).2 =
        a :: b :: c :: rest →
      EditMenu.parseRef ref = none
      ∧ (∀ elements, EditMenu.getInputByRef elements ref = none
          ∧ EditMenu.getNextInputRef elements ref = none))
    ∧ EditMenu.parseRef "1_2_3".toList = none
    ∧ EditMenu.parseRef "_5".toList = none
    ∧ EditMenu.parseRef "1a".toList = some ⟨none, 1, none⟩ := by
  refine ⟨?_, by decide, by decide, by decide⟩
  intro ref a b c rest h
  have hcontains : ((EditMenu.stripControl ref).2).contains '_' = true := by
    cases hb : ((EditMenu.stripControl ref).2).contains '_' with
    | true => rfl
    | false =>
      rw [splitOnChar_of_not_contains '_' _ hb] at h
      exact absurd h.symm (by simp)
  have hnone : EditMenu.parseRef ref = none := by
    unfold EditMenu.parseRef
    rw [if_pos (by simpa using hcontains), h]
  refine ⟨hnone, fun elements => ⟨?_, ?_⟩⟩
  · unfold EditMenu.getInputByRef
    rw [hnone]
  · unfold EditMenu.getNextInputRef
    rw [hnone]

/-- C8 witness: the amended malformed-address statement applied to the
concrete wrong-separator-count address `"1_2_3"`. -/
theorem claim8_witness :
    EditMenu.parseRef "1_2_3".toList = none
    ∧ EditMenu.getInputByRef navExampleElements "1_2_3".toList = none := by
  have h := claim8_malformed_addresses.1 "1_2_3".toList
    ['1'] ['2'] ['3'] [] (by decide)
  exact ⟨h.1, (h.2 navExampleElements).1⟩

/-!
Claims about the history engine's error handling and truncation.
-/

/-- A list's lookup at its own length is `none`. -/
theorem get?_self_length {α : Type} (l : List α) : l.get? l.length = none := by
  induction l with
  | nil => rfl
  | cons a as ih => exact ih

/-- The cells of the boundary-undo scenario: two cells whose `name`
attributes are values 1 and 2, and a replacement cell. -/
def boundaryCellA : PureCell Nat := ⟨.val 1, .val 0, .undef⟩

/-- Second cell of the boundary-undo scenario. -/
def boundaryCellB : PureCell Nat := ⟨.val 2, .val 0, .undef⟩

/-- Replacement cell of the boundary-undo scenario. -/
def boundaryCellC : PureCell Nat := ⟨.val 3, .val 0, .undef⟩

/-- A state with cursor `0` and a nonempty log in which the model does not
hold entry 0's old values: commit a batched name change on cells 0 and 1,
commit a swap of cell 1 whose supplied old value is (wrongly) `null`, undo
twice (the second undo restores `name` of cell 0 and stops silently at the
now-null slot 1), then redo (which re-applies entry 0's new `name` to cell
0, stops at the null slot 1, and leaves the cursor at 0). -/
def boundaryState : MapLayoutHistory Nat :=
  (MapLayoutHistory.redo
    ((MapLayoutHistory.undo
      ((MapLayoutHistory.undo
        ((MapLayoutHistory.swapCell
          ((MapLayoutHistory.changeAttributes
            (⟨[Slot.cell boundaryCellA, Slot.cell boundaryCellB], [], 0⟩ :
              MapLayoutHistory Nat)
            [0, 1] .name [.val 1, .val 2] [.val 11, .val 12]).1)
          1 none (some boundaryCellC)).1)).1)).1)).1

/-- C9 counterexample, refuting both boundary clauses of the claim. Redo
boundary: with a one-entry log and the cursor at the log length (the state
right after a commit), `redo` leaves the state unchanged but reports
"Cannot redo when no history entry is present for desired step." — not
silent. Undo boundary: `boundaryState` is reachable, has cursor `0` and a
two-entry log, yet `undo` changes the grid model (it writes entry 0's old
`name` value 1 over the redone value 11), with the cursor still `0` and
nothing reported — the model is not left unchanged. -/
theorem claim9_counterexample :
    (MapLayoutHistory.redo
      ((MapLayoutHistory.swapCell
        (⟨[Slot.null], [], 0⟩ : MapLayoutHistory Nat) 0 none
        (some ⟨.undef, .val 1, .undef⟩)).1) =
      ((MapLayoutHistory.swapCell
        (⟨[Slot.null], [], 0⟩ : MapLayoutHistory Nat) 0 none
        (some ⟨.undef, .val 1, .undef⟩)).1, false,
        [MapLayoutHistory.redoMissingMsg])
    ∧ ((MapLayoutHistory.swapCell
        (⟨[Slot.null], [], 0⟩ : MapLayoutHistory Nat) 0 none
        (some ⟨.undef, .val 1, .undef⟩)).1).i =
      ((MapLayoutHistory.swapCell
        (⟨[Slot.null], [], 0⟩ : MapLayoutHistory Nat) 0 none
        (some ⟨.undef, .val 1, .undef⟩)).1).history.length)
    ∧ (boundaryState.i = 0 ∧ boundaryState.history ≠ []
      ∧ (MapLayoutHistory.undo boundaryState).1.cells ≠ boundaryState.cells
      ∧ (MapLayoutHistory.undo boundaryState).1.i = 0
      ∧ (MapLayoutHistory.undo boundaryState).2 = []) := by
  decide

/-- C9 as amended: `undo` and `redo` on an empty log are silent no-ops;
`redo` at the upper boundary cursor (cursor equal to a nonempty log's
length) leaves the model, the log and the cursor unchanged and does not
throw, but reports a missing-entry error; `undo` at cursor `0` on a
nonempty log leaves the cursor at `0` and the log unchanged, but instead of
skipping the write it applies entry 0's old-value side to the model (with
that application's reports) — a write that can change the model, as
`boundaryState` shows. -/
theorem claim9_exhausted_history (V : Type) [DecidableEq V]
    (s : MapLayoutHistory V) :
    (s.history = [] →
      MapLayoutHistory.undo s = (s, [])
      ∧ MapLayoutHistory.redo s = (s, false, []))
    ∧ (s.i = s.history.length → s.history ≠ [] →
        (MapLayoutHistory.redo s).1 = s
        ∧ (MapLayoutHistory.redo s).2.1 = false
        ∧ (MapLayoutHistory.redo s).2.2 = [MapLayoutHistory.redoMissingMsg])
    ∧ (∀ (e : MapLayoutHistoryEntry V) (rest : List (MapLayoutHistoryEntry V)),
        s.i = 0 → s.history = e :: rest →
        MapLayoutHistory.undo s =
          ((⟨(MapLayoutHistory.undoApplyEntry s.cells e).1, s.history, 0⟩ :
            MapLayoutHistory V),
            (MapLayoutHistory.undoApplyEntry s.cells e).2)) := by
  refine ⟨fun h => ?_, fun hi hne => ?_, fun e rest hi hh => ?_⟩
  · have hlen : s.history.length = 0 := by simp [h]
    constructor
    · unfold MapLayoutHistory.undo
      rw [if_pos hlen]
    · unfold MapLayoutHistory.redo
      rw [if_pos hlen]
  · have hlen : ¬s.history.length = 0 :=
      Nat.pos_iff_ne_zero.mp (List.length_pos.mpr hne)
    have hget : s.history.get? s.i = none := by
      rw [hi]; exact get?_self_length s.history
    unfold MapLayoutHistory.redo
    rw [if_neg hlen, hget]
    exact ⟨rfl, rfl, rfl⟩
  · obtain ⟨cells, hist, ci⟩ := s
    simp only at hi hh
    subst hi
    subst hh
    rfl

/-- C9 witness: the amended boundary statement applied to the concrete
post-commit state of `claim9_counterexample`'s redo scenario, to a fresh
empty-log state, and — for the undo-at-0 clause — to `boundaryState`,
where the prescribed old-value application visibly changes cell 0. -/
theorem claim9_witness :
    (MapLayoutHistory.redo
      ((MapLayoutHistory.swapCell
        (⟨[Slot.null], [], 0⟩ : MapLayoutHistory Nat) 0 none
        (some ⟨.undef, .val 1, .undef⟩)).1)).2.2 =
      [MapLayoutHistory.redoMissingMsg]
    ∧ MapLayoutHistory.undo (⟨[Slot.null], [], 0⟩ : MapLayoutHistory Nat) =
      ((⟨[Slot.null], [], 0⟩ : MapLayoutHistory Nat), [])
    ∧ (MapLayoutHistory.undo boundaryState).1.cells =
      [Slot.cell boundaryCellA, Slot.null] := by
  refine ⟨?_, ?_, ?_⟩
  · exact ((claim9_exhausted_history Nat _).2.1 (by decide) (by decide)).2.2
  · exact ((claim9_exhausted_history Nat
      (⟨[Slot.null], [], 0⟩ : MapLayoutHistory Nat)).1 rfl).1
  · rw [(claim9_exhausted_history Nat boundaryState).2.2
      (boundaryState.history.headD (.swappedCell 0 none none))
      boundaryState.history.tail
      (by decide) (by decide)]
    decide

/-- C4 counterexample: `changeAttribute` on the empty (null) slot `0`
throws a `TypeError` (the threw flag is `true`) instead of being a reported
no-op; the model, log and cursor are unchanged and nothing is reported. -/
theorem claim4_counterexample :
    MapLayoutHistory.changeAttribute
      (⟨[Slot.null], [], 0⟩ : MapLayoutHistory Nat) 0 .name (.val 0) (.val 1) =
      ((⟨[Slot.null], [], 0⟩ : MapLayoutHistory Nat), true) := by
  decide

/-- C4 as amended: `changeAttribute` with an index referring to an empty
(null) or out-of-range slot throws a `TypeError` before mutating anything —
it is not a reported no-op: the state (model, log and cursor) is returned
unchanged, no history entry is appended, and no error is reported, but the
call does throw. -/
theorem claim4_invalid_single_target (V : Type) [DecidableEq V]
    (s : MapLayoutHistory V) (index : Nat) (a : Attr) (w b : JVal V)
    (h : (jsGet s.cells index).isCell = false) :
    MapLayoutHistory.changeAttribute s index a w b = (s, true) := by
  unfold MapLayoutHistory.changeAttribute
  cases hj : jsGet s.cells index with
  | undef => rfl
  | null => rfl
  | cell c => rw [hj] at h; exact absurd h (by simp [Slot.isCell])

/-- C4 witness: the amended statement at the concrete empty-slot state. -/
theorem claim4_witness :
    MapLayoutHistory.changeAttribute
      (⟨[Slot.null], [], 0⟩ : MapLayoutHistory Nat) 0 .type (.val 3) (.val 4) =
      ((⟨[Slot.null], [], 0⟩ : MapLayoutHistory Nat), true) :=
  claim4_invalid_single_target Nat _ 0 .type (.val 3) (.val 4) (by decide)

/-- Writing an attribute into a slot that holds a cell preserves, at every
position, whether the slot holds a cell. -/
theorem isCell_jsGet_set_cell {V : Type} {cells : List (Slot V)} {idx : Nat}
    {c : PureCell V} (hc : jsGet cells idx = .cell c) (c2 : PureCell V)
    (p : Nat) :
    (jsGet (cells.set idx (.cell c2)) p).isCell = (jsGet cells p).isCell := by
  by_cases hp : p = idx
  · subst hp
    rw [jsGet_set_self cells p (.cell c2) (lt_length_of_jsGet_cell hc), hc]
    rfl
  · rw [jsGet_set_ne cells idx p (.cell c2) hp]

/-- When some targeted slot holds no cell object, the `changeAttributes`
mutation loop throws. -/
theorem changeAttributesLoop_throws {V : Type} [DecidableEq V]
    (idxs : List Nat) (cells : List (Slot V)) (a : Attr) (tos : List (JVal V))
    (h : ∃ k, ∃ hk : k < idxs.length,
      (jsGet cells (idxs.get ⟨k, hk⟩)).isCell = false) :
    (MapLayoutHistory.changeAttributesLoop cells idxs a tos).2 = true := by
  induction idxs generalizing cells tos with
  | nil =>
    obtain ⟨k, hk, _⟩ := h
    exact absurd hk (by simp)
  | cons idx rest ih =>
    unfold MapLayoutHistory.changeAttributesLoop
    cases hj : jsGet cells idx with
    | undef => rfl
    | null => rfl
    | cell c =>
      obtain ⟨k, hk, hkc⟩ := h
      cases k with
      | zero =>
        rw [show (idx :: rest).get ⟨0, hk⟩ = idx from rfl, hj] at hkc
        exact absurd hkc (by simp [Slot.isCell])
      | succ k2 =>
        apply ih
        refine ⟨k2, Nat.lt_of_succ_lt_succ hk, ?_⟩
        rw [show (idx :: rest).get ⟨k2 + 1, hk⟩ =
          rest.get ⟨k2, Nat.lt_of_succ_lt_succ hk⟩ from rfl] at hkc
        rw [isCell_jsGet_set_cell hj (setAttr c a (tos.headD .undef)) _]
        exact hkc

/-- C3 counterexample: a batched `changeAttributes` over indices `[0, 1]`
where slot 1 is empty mutates cell 0 before throwing on slot 1, so the
model is NOT left byte-for-byte unchanged (the log is, and no entry is
appended). -/
theorem claim3_counterexample :
    (MapLayoutHistory.changeAttributes
      (⟨[Slot.cell ⟨.val 5, .val 0, .undef⟩, Slot.null], [], 0⟩ :
        MapLayoutHistory Nat)
      [0, 1] .name [.val 5, .val 5] [.val 9, .val 9]).2 = true
    ∧ (MapLayoutHistory.changeAttributes
      (⟨[Slot.cell ⟨.val 5, .val 0, .undef⟩, Slot.null], [], 0⟩ :
        MapLayoutHistory Nat)
      [0, 1] .name [.val 5, .val 5] [.val 9, .val 9]).1.cells =
      [Slot.cell ⟨.val 9, .val 0, .undef⟩, Slot.null]
    ∧ (MapLayoutHistory.changeAttributes
      (⟨[Slot.cell ⟨.val 5, .val 0, .undef⟩, Slot.null], [], 0⟩ :
        MapLayoutHistory Nat)
      [0, 1] .name [.val 5, .val 5] [.val 9, .val 9]).1.history = [] := by
  decide

/-- C3 as amended: a batched `changeAttributes` in which some target index
refers to an empty (null) or nonexistent slot throws at the first invalid
target instead of aborting up front: the cells at positions written before
the throw are already mutated (the batch is not atomic on the model), but
the call appends no history entry and leaves the log and the cursor
unchanged. -/
theorem claim3_batch_invalid_target (V : Type) [DecidableEq V]
    (s : MapLayoutHistory V) (idxs : List Nat) (a : Attr)
    (froms tos : List (JVal V))
    (h : ∃ k, ∃ hk : k < idxs.length,
      (jsGet s.cells (idxs.get ⟨k, hk⟩)).isCell = false) :
    (MapLayoutHistory.changeAttributes s idxs a froms tos).2 = true
    ∧ (MapLayoutHistory.changeAttributes s idxs a froms tos).1.history =
        s.history
    ∧ (MapLayoutHistory.changeAttributes s idxs a froms tos).1.i = s.i := by
  have hthrow := changeAttributesLoop_throws idxs s.cells a tos h
  unfold MapLayoutHistory.changeAttributes
  rw [if_pos hthrow]
  exact ⟨rfl, rfl, rfl⟩

/-- C3 witness: the amended statement at the counterexample's concrete
state, with slot 1 invalid. -/
theorem claim3_witness :
    (MapLayoutHistory.changeAttributes
      (⟨[Slot.cell ⟨.val 5, .val 0, .undef⟩, Slot.null], [], 0⟩ :
        MapLayoutHistory Nat)
      [0, 1] .name [.val 5, .val 5] [.val 9, .val 9]).1.history = [] :=
  (claim3_batch_invalid_target Nat _ [0, 1] .name _ _
    ⟨1, by decide, by decide⟩).2.1

/-- The cell committed first in the truncation scenario (discarded by the
later branch-truncating commit). -/
def discardedCell : PureCell Nat := ⟨.undef, .val 1, .undef⟩

/-- The cell committed after the undo in the truncation scenario. -/
def replacementCell : PureCell Nat := ⟨.undef, .val 2, .undef⟩

/-- The truncation scenario's state after commit → undo → commit over a
one-slot grid: swap in `discardedCell`, undo it, then swap in
`replacementCell`. -/
def truncationState3 : MapLayoutHistory Nat :=
  (MapLayoutHistory.swapCell
    ((MapLayoutHistory.undo
      ((MapLayoutHistory.swapCell
        (⟨[Slot.null], [], 0⟩ : MapLayoutHistory Nat) 0 none
        (some discardedCell)).1)).1)
    0 none (some replacementCell)).1

/-- The truncation scenario continued with undo → undo → redo. -/
def truncationState6 : MapLayoutHistory Nat :=
  (MapLayoutHistory.redo
    ((MapLayoutHistory.undo ((MapLayoutHistory.undo truncationState3).1)).1)).1

/-- C2: the truncation bug, on the concrete run commit → undo → commit over
a one-slot grid. `addHistoryEntry` truncates the log to `i + 1` entries
(not `i`), so after the second commit the log still holds the undone first
entry and the cursor is 2 (the claim requires log length 1 and cursor 1);
two undos followed by a redo then write the discarded first entry's new
cell back into the model. -/
theorem claim2_truncation_off_by_one :
    truncationState3.history.length = 2 ∧ truncationState3.i = 2
    ∧ truncationState6.cells = [Slot.cell discardedCell]
    ∧ truncationState6.i = 1 := by
  decide

/-!
The external call surface of the history engine, for stating invariant and
round-trip properties over arbitrary call sequences.
-/

/-- A commit call to the history engine with its arguments. -/
inductive HistoryOp (V : Type) where
  | changeAttribute (index : Nat) (attr : Attr) (fromv tov : JVal V)
  | changeAttributes (index : List Nat) (attr : Attr)
      (fromv tov : List (JVal V))
  | swapCell (index : Nat) (fromc toc : CellArg V)
  | swapCells (index : List Nat) (fromc toc : List (CellArg V))
deriving DecidableEq

/-- Dispatch one commit call. -/
def applyCommit [DecidableEq V] (s : MapLayoutHistory V) :
    HistoryOp V → MapLayoutHistory V × Bool
  | .changeAttribute i a w b => MapLayoutHistory.changeAttribute s i a w b
  | .changeAttributes i a ws bs => MapLayoutHistory.changeAttributes s i a ws bs
  | .swapCell i w b => MapLayoutHistory.swapCell s i w b
  | .swapCells i ws bs => MapLayoutHistory.swapCells s i ws bs

/-- Any call of the engine's public surface. -/
inductive EngineCall (V : Type) where
  | undoCall : EngineCall V
  | redoCall : EngineCall V
  | commit (op : HistoryOp V) : EngineCall V

/-- Apply one engine call, keeping the resulting state. -/
def applyCall [DecidableEq V] (s : MapLayoutHistory V) :
    EngineCall V → MapLayoutHistory V
  | .undoCall => (MapLayoutHistory.undo s).1
  | .redoCall => (MapLayoutHistory.redo s).1
  | .commit op => (applyCommit s op).1

/-- Apply a sequence of engine calls. -/
def applyCalls [DecidableEq V] (s : MapLayoutHistory V)
    (l : List (EngineCall V)) : MapLayoutHistory V :=
  l.foldl applyCall s

/-- `addHistoryEntry` keeps the cursor within the log length. -/
theorem addHistoryEntry_cursor_le {V : Type} (s : MapLayoutHistory V)
    (e : MapLayoutHistoryEntry V) (h : s.i ≤ s.history.length) :
    (MapLayoutHistory.addHistoryEntry s e).1.i ≤
      (MapLayoutHistory.addHistoryEntry s e).1.history.length := by
  unfold MapLayoutHistory.addHistoryEntry
  cases MapLayoutHistory.cloneEntry e with
  | none =>
    show s.i ≤ (MapLayoutHistory.truncatedHistory s).length
    unfold MapLayoutHistory.truncatedHistory
    by_cases hl : s.history.length > s.i + 1
    · rw [if_pos hl]
      simp only [List.length_take]
      omega
    · rw [if_neg hl]
      exact h
  | some e2 => simp

/-- A successful `addHistoryEntry` sets the cursor to the new log length. -/
theorem addHistoryEntry_ok_cursor {V : Type} (s : MapLayoutHistory V)
    (e : MapLayoutHistoryEntry V)
    (h : (MapLayoutHistory.addHistoryEntry s e).2 = false) :
    (MapLayoutHistory.addHistoryEntry s e).1.i =
      (MapLayoutHistory.addHistoryEntry s e).1.history.length := by
  unfold MapLayoutHistory.addHistoryEntry at h ⊢
  cases hc : MapLayoutHistory.cloneEntry e with
  | none => rw [hc] at h; exact absurd h (by simp)
  | some e2 => simp

/-- Every engine call preserves `i ≤ history.length`. -/
theorem applyCall_cursor_le {V : Type} [DecidableEq V]
    (s : MapLayoutHistory V) (call : EngineCall V)
    (h : s.i ≤ s.history.length) :
    (applyCall s call).i ≤ (applyCall s call).history.length := by
  cases call with
  | undoCall =>
    show (MapLayoutHistory.undo s).1.i ≤
      (MapLayoutHistory.undo s).1.history.length
    unfold MapLayoutHistory.undo
    by_cases hl : s.history.length = 0
    · simpa [hl] using h
    · rw [if_neg hl]
      have hi2 : MapLayoutHistory.undoCursor s ≤ s.history.length :=
        le_trans (by unfold MapLayoutHistory.undoCursor; split <;> omega) h
      cases hget : s.history.get? (MapLayoutHistory.undoCursor s) with
      | none => exact hi2
      | some e => exact hi2
  | redoCall =>
    show (MapLayoutHistory.redo s).1.i ≤
      (MapLayoutHistory.redo s).1.history.length
    unfold MapLayoutHistory.redo
    by_cases hl : s.history.length = 0
    · simpa [hl] using h
    · rw [if_neg hl]
      cases hget : s.history.get? s.i with
      | none => exact h
      | some e =>
        have hlt : s.i < s.history.length := by
          by_contra hc
          rw [List.get?_eq_none.mpr (Nat.le_of_not_lt hc)] at hget
          exact Option.noConfusion hget
        cases e with
        | changeAttribute idx a w b =>
          simp only [MapLayoutHistory.redoApplyEntry]
          cases hj : jsGet s.cells idx with
          | undef => exact h
          | null => exact h
          | cell c => exact hlt
        | changeAttributes idxs a ws bs =>
          simp only [MapLayoutHistory.redoApplyEntry]
          cases hr : MapLayoutHistory.redoChangeAttributesLoop s.cells idxs a bs with
          | done cells2 => exact hlt
          | stop cells2 => exact h
          | threw cells2 => exact h
        | swappedCell idx w b => exact hlt
        | swappedCells idxs ws bs => exact hlt
  | commit op =>
    cases op with
    | changeAttribute i a w b =>
      show (MapLayoutHistory.changeAttribute s i a w b).1.i ≤
        (MapLayoutHistory.changeAttribute s i a w b).1.history.length
      unfold MapLayoutHistory.changeAttribute
      cases hj : jsGet s.cells i with
      | undef => exact h
      | null => exact h
      | cell c => exact addHistoryEntry_cursor_le _ _ h
    | changeAttributes i a ws bs =>
      show (MapLayoutHistory.changeAttributes s i a ws bs).1.i ≤
        (MapLayoutHistory.changeAttributes s i a ws bs).1.history.length
      unfold MapLayoutHistory.changeAttributes
      by_cases hthrew : (MapLayoutHistory.changeAttributesLoop s.cells i a bs).2
      · simpa [hthrew] using h
      · rw [if_neg hthrew]
        exact addHistoryEntry_cursor_le _ _ h
    | swapCell i w b => exact addHistoryEntry_cursor_le _ _ h
    | swapCells i ws bs =>
      show (MapLayoutHistory.swapCells s i ws bs).1.i ≤
        (MapLayoutHistory.swapCells s i ws bs).1.history.length
      unfold MapLayoutHistory.swapCells
      by_cases hthrew : (MapLayoutHistory.swapCellsLoop s.cells i bs).2
      · simpa [hthrew] using h
      · rw [if_neg hthrew]
        exact addHistoryEntry_cursor_le _ _ h

/-- Cursor bound along any engine call sequence. -/
theorem applyCalls_cursor_le {V : Type} [DecidableEq V]
    (calls : List (EngineCall V)) (s : MapLayoutHistory V)
    (h : s.i ≤ s.history.length) :
    (applyCalls s calls).i ≤ (applyCalls s calls).history.length := by
  induction calls generalizing s with
  | nil => exact h
  | cons c rest ih => exact ih (applyCall s c) (applyCall_cursor_le s c h)

/-- C10: starting from a fresh history, after any sequence of `undo`,
`redo` and commit calls the cursor satisfies `i ≤ history.length` (it is a
`Nat`, hence also `0 ≤ i`); moreover `undo` keeps the cursor at `0` when it
is already `0`, `redo` leaves the cursor unchanged when no entry exists at
the cursor, and every commit call that returns without throwing sets the
cursor to the new log length. -/
theorem claim10_cursor_bounds (V : Type) [DecidableEq V] :
    (∀ (cells : List (Slot V)) (calls : List (EngineCall V)),
      (applyCalls (⟨cells, [], 0⟩ : MapLayoutHistory V) calls).i ≤
        (applyCalls (⟨cells, [], 0⟩ : MapLayoutHistory V) calls).history.length)
    ∧ (∀ s : MapLayoutHistory V, s.i = 0 → (MapLayoutHistory.undo s).1.i = 0)
    ∧ (∀ s : MapLayoutHistory V, s.history.get? s.i = none →
        (MapLayoutHistory.redo s).1.i = s.i)
    ∧ (∀ (s : MapLayoutHistory V) (op : HistoryOp V),
        (applyCommit s op).2 = false →
        (applyCommit s op).1.i = (applyCommit s op).1.history.length) := by
  refine ⟨fun cells calls => applyCalls_cursor_le calls _ (Nat.zero_le _),
    fun s hi => ?_, fun s hget => ?_, fun s op h => ?_⟩
  · unfold MapLayoutHistory.undo
    have hcur : MapLayoutHistory.undoCursor s = 0 := by
      unfold MapLayoutHistory.undoCursor
      simp [hi]
    by_cases hl : s.history.length = 0
    · rw [if_pos hl]; exact hi
    · rw [if_neg hl, hcur]
      cases s.history.get? 0 with
      | none => rfl
      | some e => rfl
  · unfold MapLayoutHistory.redo
    by_cases hl : s.history.length = 0
    · rw [if_pos hl]
    · rw [if_neg hl, hget]
  · cases op with
    | changeAttribute i a w b =>
      show (MapLayoutHistory.changeAttribute s i a w b).1.i =
        (MapLayoutHistory.changeAttribute s i a w b).1.history.length
      have h2 : (MapLayoutHistory.changeAttribute s i a w b).2 = false := h
      unfold MapLayoutHistory.changeAttribute at h2 ⊢
      cases hj : jsGet s.cells i with
      | undef => rw [hj] at h2; exact absurd h2 (by simp)
      | null => rw [hj] at h2; exact absurd h2 (by simp)
      | cell c =>
        rw [hj] at h2
        exact addHistoryEntry_ok_cursor _ _ h2
    | changeAttributes i a ws bs =>
      show (MapLayoutHistory.changeAttributes s i a ws bs).1.i =
        (MapLayoutHistory.changeAttributes s i a ws bs).1.history.length
      have h2 : (MapLayoutHistory.changeAttributes s i a ws bs).2 = false := h
      unfold MapLayoutHistory.changeAttributes at h2 ⊢
      by_cases hthrew : (MapLayoutHistory.changeAttributesLoop s.cells i a bs).2
      · rw [if_pos hthrew] at h2; exact absurd h2 (by simp)
      · rw [if_neg hthrew] at h2 ⊢
        exact addHistoryEntry_ok_cursor _ _ h2
    | swapCell i w b =>
      exact addHistoryEntry_ok_cursor _ _ h
    | swapCells i ws bs =>
      show (MapLayoutHistory.swapCells s i ws bs).1.i =
        (MapLayoutHistory.swapCells s i ws bs).1.history.length
      have h2 : (MapLayoutHistory.swapCells s i ws bs).2 = false := h
      unfold MapLayoutHistory.swapCells at h2 ⊢
      by_cases hthrew : (MapLayoutHistory.swapCellsLoop s.cells i bs).2
      · rw [if_pos hthrew] at h2; exact absurd h2 (by simp)
      · rw [if_neg hthrew] at h2 ⊢
        exact addHistoryEntry_ok_cursor _ _ h2

/-- C10 witness: the cursor bound after a concrete call sequence (commit,
undo, undo, redo, commit) on a one-slot grid, and the commit clause at a
concrete successful swap. -/
theorem claim10_witness :
    ((applyCalls (⟨[Slot.null], [], 0⟩ : MapLayoutHistory Nat)
      [.commit (.swapCell 0 none (some ⟨.undef, .val 1, .undef⟩)),
        .undoCall, .undoCall, .redoCall,
        .commit (.swapCell 0 none (some ⟨.undef, .val 2, .undef⟩))]).i ≤
      (applyCalls (⟨[Slot.null], [], 0⟩ : MapLayoutHistory Nat)
        [.commit (.swapCell 0 none (some ⟨.undef, .val 1, .undef⟩)),
          .undoCall, .undoCall, .redoCall,
          .commit (.swapCell 0 none (some ⟨.undef, .val 2, .undef⟩))]).history.length)
    ∧ (applyCommit (⟨[Slot.null], [], 0⟩ : MapLayoutHistory Nat)
        (.swapCell 0 none (some ⟨.undef, .val 3, .undef⟩))).1.i =
      (applyCommit (⟨[Slot.null], [], 0⟩ : MapLayoutHistory Nat)
        (.swapCell 0 none (some ⟨.undef, .val 3, .undef⟩))).1.history.length := by
  refine ⟨(claim10_cursor_bounds Nat).1 [Slot.null] _, ?_⟩
  exact (claim10_cursor_bounds Nat).2.2.2 _ _ (by decide)

/-!
The undo/redo inverse law. The claim quantifies over arbitrary successful
commits, which fails because `undo`/`redo` replay the caller-supplied
`was`/`became` payloads; the law holds for well-formed ("honest") commits,
whose old values equal the model's current values at the target indices,
whose batched arrays are parallel, whose values are defined, and whose
swap indices are in bounds.
-/

/-- The pure effect of one commit call on the cells array (the mutation the
call performs before logging). -/
def commitCells [DecidableEq V] (cells : List (Slot V)) :
    HistoryOp V → List (Slot V)
  | .changeAttribute idx a _ b =>
    match jsGet cells idx with
    | .cell c => cells.set idx (.cell (setAttr c a b))
    | _ => cells
  | .changeAttributes idxs a _ bs =>
    (MapLayoutHistory.changeAttributesLoop cells idxs a bs).1
  | .swapCell idx _ b => jsSet cells idx (toSlot b)
  | .swapCells idxs _ bs => (MapLayoutHistory.swapCellsLoop cells idxs bs).1

/-- The history entry a commit call logs (before cloning). -/
def entryOf : HistoryOp V → MapLayoutHistoryEntry V
  | .changeAttribute idx a w b => .changeAttribute idx a w b
  | .changeAttributes idxs a ws bs => .changeAttributes idxs a ws bs
  | .swapCell idx w b => .swappedCell idx w b
  | .swapCells idxs ws bs => .swappedCells idxs ws bs

/-- Well-formedness of one commit call against the current cells: supplied
old values are the current values at the target indices, attribute targets
hold cells, batched arrays are parallel, supplied values are defined
(non-`undefined`), and swap indices are in bounds. -/
def HonestOp [DecidableEq V] (cells : List (Slot V)) : HistoryOp V → Prop
  | .changeAttribute idx a w b =>
    (∃ c, jsGet cells idx = .cell c ∧ w = getAttr c a)
    ∧ w ≠ JVal.undef ∧ b ≠ JVal.undef
  | .changeAttributes idxs a ws bs =>
    ws.length = idxs.length ∧ bs.length = idxs.length
    ∧ (∀ k (hk : k < idxs.length), ∃ c,
        jsGet cells (idxs.get ⟨k, hk⟩) = .cell c
        ∧ ws.getD k JVal.undef = getAttr c a)
    ∧ (∀ w ∈ ws, w ≠ JVal.undef) ∧ (∀ b ∈ bs, b ≠ JVal.undef)
  | .swapCell idx w _ => toSlot w = jsGet cells idx ∧ idx < cells.length
  | .swapCells idxs ws bs =>
    ws.length = idxs.length ∧ bs.length = idxs.length
    ∧ (∀ k (hk : k < idxs.length),
        toSlot (ws.getD k none) = jsGet cells (idxs.get ⟨k, hk⟩)
        ∧ idxs.get ⟨k, hk⟩ < cells.length)

/-- Well-formedness of a commit sequence: each call is honest for the cells
it runs against. -/
def HonestSeq [DecidableEq V] (cells : List (Slot V)) :
    List (HistoryOp V) → Prop
  | [] => True
  | op :: rest => HonestOp cells op ∧ HonestSeq (commitCells cells op) rest

/-- Success of a commit sequence: no call throws. -/
def SeqOk [DecidableEq V] (s : MapLayoutHistory V) : List (HistoryOp V) → Prop
  | [] => True
  | op :: rest =>
    (applyCommit s op).2 = false ∧ SeqOk (applyCommit s op).1 rest

/-- Apply a sequence of commit calls, keeping the states. -/
def applyCommits [DecidableEq V] (s : MapLayoutHistory V) :
    List (HistoryOp V) → MapLayoutHistory V
  | [] => s
  | op :: rest => applyCommits (applyCommit s op).1 rest

/-- `undo()` iterated. -/
def iterUndo [DecidableEq V] : Nat → MapLayoutHistory V → MapLayoutHistory V
  | 0, s => s
  | n + 1, s => (MapLayoutHistory.undo (iterUndo n s)).1

/-- `redo()` iterated. -/
def iterRedo [DecidableEq V] : Nat → MapLayoutHistory V → MapLayoutHistory V
  | 0, s => s
  | n + 1, s => iterRedo n (MapLayoutHistory.redo s).1

theorem headD_eq_getD {α : Type} (l : List α) (d : α) :
    l.headD d = l.getD 0 d := by
  cases l <;> rfl

theorem tail_getD {α : Type} (l : List α) (k : Nat) (d : α) :
    l.tail.getD k d = l.getD (k + 1) d := by
  cases l <;> rfl

/-- Invariant of the attribute-mutation loops: `cells` differs from
`cells0` at most at positions satisfying `P`, and there only by a single
write to attribute `a` of a cell that `cells0` holds at that position. -/
def AttrInv (a : Attr) (cells0 cells : List (Slot V)) (P : Nat → Prop) :
    Prop :=
  cells.length = cells0.length ∧
  ∀ p, jsGet cells p = jsGet cells0 p ∨
    (P p ∧ ∃ c u, jsGet cells0 p = .cell c
      ∧ jsGet cells p = .cell (setAttr c a u))

/-- Running the `changeAttributes` mutation loop over targets that hold
cells in the base array preserves the invariant, does not throw, and takes
the same steps as the corresponding `redo` loop. -/
theorem changeAttributesLoop_honest {V : Type} [DecidableEq V] (a : Attr)
    (cells0 : List (Slot V)) (P : Nat → Prop) :
    ∀ (idxs : List Nat) (tos : List (JVal V)) (cells : List (Slot V)),
    AttrInv a cells0 cells P →
    (∀ i ∈ idxs, P i) →
    (∀ i ∈ idxs, ∃ c, jsGet cells0 i = .cell c) →
    (MapLayoutHistory.changeAttributesLoop cells idxs a tos).2 = false
    ∧ MapLayoutHistory.redoChangeAttributesLoop cells idxs a tos =
        .done (MapLayoutHistory.changeAttributesLoop cells idxs a tos).1
    ∧ AttrInv a cells0 (MapLayoutHistory.changeAttributesLoop cells idxs a tos).1 P := by
  intro idxs
  induction idxs with
  | nil =>
    intro tos cells hinv _ _
    exact ⟨rfl, rfl, hinv⟩
  | cons idx rest ih =>
    intro tos cells hinv hsub htgt
    obtain ⟨hlen, hp⟩ := hinv
    obtain ⟨c0, hc0⟩ := htgt idx (List.mem_cons_self idx rest)
    have hcur : ∃ c2, jsGet cells idx = .cell c2
        ∧ setAttr c2 a (tos.headD JVal.undef) =
          setAttr c0 a (tos.headD JVal.undef) := by
      cases hp idx with
      | inl heq =>
        exact ⟨c0, heq.trans hc0, rfl⟩
      | inr hdiff =>
        obtain ⟨_, c, u, h1, h2⟩ := hdiff
        have hcc : c0 = c := by
          rw [hc0] at h1
          exact (Slot.cell.injEq _ _).mp h1
        subst hcc
        exact ⟨setAttr c0 a u, h2, setAttr_setAttr c0 a u _⟩
    obtain ⟨c2, hc2, hset⟩ := hcur
    have hidxlt : idx < cells.length := lt_length_of_jsGet_cell hc2
    have hinv1 : AttrInv a cells0
        (cells.set idx (.cell (setAttr c2 a (tos.headD JVal.undef)))) P := by
      refine ⟨by rw [List.length_set]; exact hlen, fun p => ?_⟩
      by_cases hpe : p = idx
      · subst hpe
        rw [jsGet_set_self cells p _ hidxlt, hset]
        exact Or.inr ⟨hsub p (List.mem_cons_self p rest), c0,
          tos.headD JVal.undef, hc0, rfl⟩
      · rw [jsGet_set_ne cells idx p _ hpe]
        exact hp p
    have ihr := ih tos.tail
      (cells.set idx (.cell (setAttr c2 a (tos.headD JVal.undef))))
      hinv1 (fun i hi => hsub i (List.mem_cons_of_mem idx hi))
      (fun i hi => htgt i (List.mem_cons_of_mem idx hi))
    unfold MapLayoutHistory.changeAttributesLoop
      MapLayoutHistory.redoChangeAttributesLoop
    rw [hc2]
    exact ihr

/-- Replaying honest `was` values restores the base array: the undo loop of
`changeAttributes`, run on an array that differs from the base only by
attribute-`a` writes at targeted positions, yields the base array. -/
theorem undoChangeAttributesLoop_restores {V : Type} [DecidableEq V]
    (a : Attr) (cells0 : List (Slot V)) :
    ∀ (idxs : List Nat) (ws : List (JVal V)) (cells : List (Slot V)),
    cells.length = cells0.length →
    (∀ k (hk : k < idxs.length), ∃ c,
      jsGet cells0 (idxs.get ⟨k, hk⟩) = .cell c
      ∧ ws.getD k JVal.undef = getAttr c a) →
    (∀ p, jsGet cells p = jsGet cells0 p ∨
      (p ∈ idxs ∧ ∃ c u, jsGet cells0 p = .cell c
        ∧ jsGet cells p = .cell (setAttr c a u))) →
    (MapLayoutHistory.undoChangeAttributesLoop cells idxs a ws).1 = cells0 := by
  intro idxs
  induction idxs with
  | nil =>
    intro ws cells hlen _ hp
    refine eq_of_jsGet_eq cells cells0 hlen (fun p => ?_)
    cases hp p with
    | inl h => exact h
    | inr h => exact absurd h.1 (List.not_mem_nil p)
  | cons idx rest ih =>
    intro ws cells hlen htgt hp
    obtain ⟨c0, hc0, hw0⟩ := htgt 0 (Nat.succ_pos rest.length)
    have hc0' : jsGet cells0 idx = .cell c0 := hc0
    have hw0' : ws.headD JVal.undef = getAttr c0 a := by
      rw [headD_eq_getD]; exact hw0
    have hcur : ∃ c2, jsGet cells idx = .cell c2
        ∧ setAttr c2 a (getAttr c0 a) = c0 := by
      cases hp idx with
      | inl heq =>
        exact ⟨c0, heq.trans hc0', setAttr_getAttr_self c0 a⟩
      | inr hdiff =>
        obtain ⟨_, c, u, h1, h2⟩ := hdiff
        have hcc : c0 = c := by
          rw [hc0'] at h1
          exact (Slot.cell.injEq _ _).mp h1
        subst hcc
        exact ⟨setAttr c0 a u, h2,
          (setAttr_setAttr c0 a u _).trans (setAttr_getAttr_self c0 a)⟩
    obtain ⟨c2, hc2, hset⟩ := hcur
    have hidxlt : idx < cells.length := lt_length_of_jsGet_cell hc2
    have hstep : cells.set idx (.cell (setAttr c2 a (ws.headD JVal.undef))) =
        cells.set idx (.cell c0) := by
      rw [hw0', hset]
    have hp1 : ∀ p, jsGet (cells.set idx (.cell c0)) p = jsGet cells0 p ∨
        (p ∈ rest ∧ ∃ c u, jsGet cells0 p = .cell c
          ∧ jsGet (cells.set idx (.cell c0)) p = .cell (setAttr c a u)) := by
      intro p
      by_cases hpe : p = idx
      · subst hpe
        rw [jsGet_set_self cells p _ hidxlt, hc0']
        exact Or.inl rfl
      · rw [jsGet_set_ne cells idx p _ hpe]
        cases hp p with
        | inl h => exact Or.inl h
        | inr h =>
          refine Or.inr ⟨?_, h.2⟩
          cases List.mem_cons.mp h.1 with
          | inl he => exact absurd he hpe
          | inr hr => exact hr
    have ihr := ih ws.tail (cells.set idx (.cell c0))
      (by rw [List.length_set]; exact hlen)
      (fun k hk => by
        rw [tail_getD]
        exact htgt (k + 1) (Nat.succ_lt_succ hk))
      hp1
    unfold MapLayoutHistory.undoChangeAttributesLoop
    rw [hc2]
    show (MapLayoutHistory.undoChangeAttributesLoop
      (cells.set idx (.cell (setAttr c2 a (ws.headD JVal.undef)))) rest a
      ws.tail).1 = cells0
    rw [hstep]
    exact ihr

/-- With enough `to` values, the `swapCells` commit loop does not throw and
performs exactly the writes of the shared write loop. -/
theorem swapCellsLoop_eq_write {V : Type} :
    ∀ (idxs : List Nat) (tos : List (CellArg V)) (cells : List (Slot V)),
    idxs.length ≤ tos.length →
    MapLayoutHistory.swapCellsLoop cells idxs tos =
      (MapLayoutHistory.writeCellsLoop cells idxs tos, false) := by
  intro idxs
  induction idxs with
  | nil =>
    intro tos cells _
    cases tos <;> rfl
  | cons idx rest ih =>
    intro tos cells hlen
    cases tos with
    | nil => exact absurd hlen (by simp)
    | cons t ts =>
      unfold MapLayoutHistory.swapCellsLoop MapLayoutHistory.writeCellsLoop
      exact ih ts (jsSet cells idx (toSlot t)) (Nat.le_of_succ_le_succ hlen)

/-- With in-bounds indices, the write loop preserves the array length and
leaves untargeted positions unchanged. -/
theorem writeCellsLoop_length_outside {V : Type} :
    ∀ (idxs : List Nat) (vals : List (CellArg V)) (cells : List (Slot V)),
    (∀ i ∈ idxs, i < cells.length) →
    (MapLayoutHistory.writeCellsLoop cells idxs vals).length = cells.length
    ∧ ∀ p, p ∉ idxs →
        jsGet (MapLayoutHistory.writeCellsLoop cells idxs vals) p =
          jsGet cells p := by
  intro idxs
  induction idxs with
  | nil => exact fun vals cells _ => ⟨rfl, fun p _ => rfl⟩
  | cons idx rest ih =>
    intro vals cells hb
    have hidx : idx < cells.length := hb idx (List.mem_cons_self idx rest)
    have main : ∀ (v : Slot V) (vs : List (CellArg V)),
        (MapLayoutHistory.writeCellsLoop (jsSet cells idx v) rest vs).length =
          cells.length
        ∧ ∀ p, p ∉ idx :: rest →
            jsGet (MapLayoutHistory.writeCellsLoop (jsSet cells idx v) rest vs)
              p = jsGet cells p := by
      intro v vs
      have hset : jsSet cells idx v = cells.set idx v :=
        jsSet_eq_set cells idx v hidx
      have hlen1 : (cells.set idx v).length = cells.length := List.length_set ..
      have ihr := ih vs (cells.set idx v)
        (fun i hi => by rw [hlen1]; exact hb i (List.mem_cons_of_mem idx hi))
      rw [hset]
      refine ⟨ihr.1.trans hlen1, fun p hp => ?_⟩
      have hpne : p ≠ idx := fun he => hp (he ▸ List.mem_cons_self idx rest)
      have hpr : p ∉ rest := fun hr => hp (List.mem_cons_of_mem idx hr)
      rw [ihr.2 p hpr, jsGet_set_ne cells idx p _ hpne]
    cases vals with
    | nil => exact main Slot.undef []
    | cons t ts => exact main (toSlot t) ts

/-- Replaying honest `was` cells restores the base array: the write loop of
the `swappedCells` undo, run on an array that differs from the base only at
targeted positions, yields the base array. -/
theorem writeCellsLoop_restores {V : Type} (cells0 : List (Slot V)) :
    ∀ (idxs : List Nat) (ws : List (CellArg V)) (cells : List (Slot V)),
    cells.length = cells0.length →
    idxs.length ≤ ws.length →
    (∀ k (hk : k < idxs.length),
      toSlot (ws.getD k none) = jsGet cells0 (idxs.get ⟨k, hk⟩)
      ∧ idxs.get ⟨k, hk⟩ < cells0.length) →
    (∀ p, jsGet cells p = jsGet cells0 p ∨ p ∈ idxs) →
    MapLayoutHistory.writeCellsLoop cells idxs ws = cells0 := by
  intro idxs
  induction idxs with
  | nil =>
    intro ws cells hlen _ _ hp
    refine eq_of_jsGet_eq cells cells0 hlen (fun p => ?_)
    cases hp p with
    | inl h => exact h
    | inr h => exact absurd h (List.not_mem_nil p)
  | cons idx rest ih =>
    intro ws cells hlen hws htgt hp
    cases ws with
    | nil => exact absurd hws (by simp)
    | cons w ws2 =>
      obtain ⟨hw0, hb0⟩ := htgt 0 (Nat.succ_pos rest.length)
      have hw0' : toSlot w = jsGet cells0 idx := hw0
      have hb0' : idx < cells.length := by rw [hlen]; exact hb0
      have hstep : jsSet cells idx (toSlot w) =
          cells.set idx (jsGet cells0 idx) := by
        rw [jsSet_eq_set cells idx _ hb0', hw0']
      have hp1 : ∀ p, jsGet (cells.set idx (jsGet cells0 idx)) p =
          jsGet cells0 p ∨ p ∈ rest := by
        intro p
        by_cases hpe : p = idx
        · subst hpe
          exact Or.inl (jsGet_set_self cells p _ hb0')
        · rw [jsGet_set_ne cells idx p _ hpe]
          cases hp p with
          | inl h => exact Or.inl h
          | inr h =>
            cases List.mem_cons.mp h with
            | inl he => exact absurd he hpe
            | inr hr => exact Or.inr hr
      have ihr := ih ws2 (cells.set idx (jsGet cells0 idx))
        (by rw [List.length_set]; exact hlen)
        (Nat.le_of_succ_le_succ hws)
        (fun k hk => htgt (k + 1) (Nat.succ_lt_succ hk))
        hp1
      unfold MapLayoutHistory.writeCellsLoop
      show MapLayoutHistory.writeCellsLoop (jsSet cells idx (toSlot w))
        rest ws2 = cells0
      rw [hstep]
      exact ihr

theorem deepCloneJVal_of_ne {V : Type} {w : JVal V} (h : w ≠ JVal.undef) :
    MapLayoutHistory.deepCloneJVal w = some w := by
  cases w with
  | undef => exact absurd rfl h
  | null => rfl
  | val v => rfl

theorem map_clone_of_no_undef {V : Type} {l : List (JVal V)}
    (h : ∀ x ∈ l, x ≠ JVal.undef) :
    l.map MapLayoutHistory.deepCloneJValInArray = l := by
  induction l with
  | nil => rfl
  | cons x xs ih =>
    have hne := h x (List.mem_cons_self x xs)
    have hx : MapLayoutHistory.deepCloneJValInArray x = x := by
      cases x with
      | undef => exact absurd rfl hne
      | null => rfl
      | val v => rfl
    simp only [List.map_cons, hx,
      ih (fun y hy => h y (List.mem_cons_of_mem x hy))]

/-- Entries of honest commits survive the deep clone unchanged. -/
theorem cloneEntry_entryOf {V : Type} [DecidableEq V]
    {cells : List (Slot V)} {op : HistoryOp V} (h : HonestOp cells op) :
    MapLayoutHistory.cloneEntry (entryOf op) = some (entryOf op) := by
  cases op with
  | changeAttribute idx a w b =>
    obtain ⟨_, hw, hb⟩ := h
    show MapLayoutHistory.cloneEntry (.changeAttribute idx a w b) =
      some (.changeAttribute idx a w b)
    simp [MapLayoutHistory.cloneEntry, deepCloneJVal_of_ne hw,
      deepCloneJVal_of_ne hb]
  | changeAttributes idxs a ws bs =>
    obtain ⟨_, _, _, hws, hbs⟩ := h
    show MapLayoutHistory.cloneEntry (.changeAttributes idxs a ws bs) =
      some (.changeAttributes idxs a ws bs)
    simp [MapLayoutHistory.cloneEntry, map_clone_of_no_undef hws,
      map_clone_of_no_undef hbs]
  | swapCell idx w b => rfl
  | swapCells idxs ws bs => rfl

/-- `addHistoryEntry` with the cursor at the end of the log: no truncation,
plain append. -/
theorem addHistoryEntry_at_end {V : Type} (s : MapLayoutHistory V)
    (e : MapLayoutHistoryEntry V) (hend : s.i = s.history.length)
    (hclone : MapLayoutHistory.cloneEntry e = some e) :
    MapLayoutHistory.addHistoryEntry s e =
      ({ s with history := s.history ++ [e], i := s.history.length + 1 },
        false) := by
  have htr : MapLayoutHistory.truncatedHistory s = s.history := by
    unfold MapLayoutHistory.truncatedHistory
    rw [if_neg (by omega)]
  unfold MapLayoutHistory.addHistoryEntry
  rw [hclone, htr]

/-- Targets of an honest batched attribute commit hold cells. -/
theorem honest_targets_cell {V : Type} {cells : List (Slot V)} {a : Attr}
    {idxs : List Nat} {ws : List (JVal V)}
    (htgt : ∀ k (hk : k < idxs.length), ∃ c,
      jsGet cells (idxs.get ⟨k, hk⟩) = .cell c
      ∧ ws.getD k JVal.undef = getAttr c a) :
    ∀ i ∈ idxs, ∃ c, jsGet cells i = .cell c := by
  intro i hi
  obtain ⟨⟨k, hk⟩, hik⟩ := List.mem_iff_get.mp hi
  obtain ⟨c, hc, _⟩ := htgt k hk
  exact ⟨c, hik ▸ hc⟩

/-- Targets of an honest batched swap commit are in bounds. -/
theorem honest_swap_bounds {V : Type} {cells : List (Slot V)}
    {idxs : List Nat} {ws : List (CellArg V)}
    (htgt : ∀ k (hk : k < idxs.length),
      toSlot (ws.getD k none) = jsGet cells (idxs.get ⟨k, hk⟩)
      ∧ idxs.get ⟨k, hk⟩ < cells.length) :
    ∀ i ∈ idxs, i < cells.length := by
  intro i hi
  obtain ⟨⟨k, hk⟩, hik⟩ := List.mem_iff_get.mp hi
  exact hik ▸ (htgt k hk).2

/-- An honest commit at an end-of-log cursor succeeds and has the expected
state effect: the pure cells mutation, the logged entry, and the cursor at
the new log length. -/
theorem applyCommit_honest {V : Type} [DecidableEq V]
    (s : MapLayoutHistory V) (op : HistoryOp V)
    (hend : s.i = s.history.length) (h : HonestOp s.cells op) :
    applyCommit s op =
      (⟨commitCells s.cells op, s.history ++ [entryOf op],
        s.history.length + 1⟩, false) := by
  cases op with
  | changeAttribute idx a w b =>
    obtain ⟨⟨c, hc, hw⟩, hwne, hbne⟩ := h
    show MapLayoutHistory.changeAttribute s idx a w b = _
    unfold MapLayoutHistory.changeAttribute
    rw [hc]
    show MapLayoutHistory.addHistoryEntry
      { s with cells := s.cells.set idx (Slot.cell (setAttr c a b)) }
      (MapLayoutHistoryEntry.changeAttribute idx a w b) = _
    rw [addHistoryEntry_at_end
      { s with cells := s.cells.set idx (Slot.cell (setAttr c a b)) }
      (MapLayoutHistoryEntry.changeAttribute idx a w b) hend
      (@cloneEntry_entryOf V _ _ (.changeAttribute idx a w b)
        ⟨⟨c, hc, hw⟩, hwne, hbne⟩)]
    simp [commitCells, entryOf, hc]
  | changeAttributes idxs a ws bs =>
    obtain ⟨hws, hbs, htgt, hwsne, hbsne⟩ := h
    have hloop := changeAttributesLoop_honest a s.cells (· ∈ idxs) idxs bs
      s.cells ⟨rfl, fun p => Or.inl rfl⟩ (fun i hi => hi)
      (honest_targets_cell htgt)
    show MapLayoutHistory.changeAttributes s idxs a ws bs = _
    unfold MapLayoutHistory.changeAttributes
    rw [if_neg (by rw [hloop.1]; exact Bool.false_ne_true)]
    rw [addHistoryEntry_at_end
      { s with cells :=
          (MapLayoutHistory.changeAttributesLoop s.cells idxs a bs).1 }
      (MapLayoutHistoryEntry.changeAttributes idxs a ws bs) hend
      (@cloneEntry_entryOf V _ _ (.changeAttributes idxs a ws bs)
        ⟨hws, hbs, htgt, hwsne, hbsne⟩)]
    simp [commitCells, entryOf]
  | swapCell idx w b =>
    show MapLayoutHistory.swapCell s idx w b = _
    unfold MapLayoutHistory.swapCell
    rw [addHistoryEntry_at_end
      { s with cells := jsSet s.cells idx (toSlot b) }
      (MapLayoutHistoryEntry.swappedCell idx w b) hend
      (@cloneEntry_entryOf V _ _ (.swapCell idx w b) h)]
    simp [commitCells, entryOf]
  | swapCells idxs ws bs =>
    obtain ⟨hws, hbs, htgt⟩ := h
    have hloop := swapCellsLoop_eq_write idxs bs s.cells (by omega)
    show MapLayoutHistory.swapCells s idxs ws bs = _
    unfold MapLayoutHistory.swapCells
    rw [if_neg (by rw [hloop]; exact Bool.false_ne_true)]
    rw [addHistoryEntry_at_end
      { s with cells := (MapLayoutHistory.swapCellsLoop s.cells idxs bs).1 }
      (MapLayoutHistoryEntry.swappedCells idxs ws bs) hend
      (@cloneEntry_entryOf V _ _ (.swapCells idxs ws bs) ⟨hws, hbs, htgt⟩)]
    simp [commitCells, entryOf]

/-- Undoing an honest commit's logged entry restores the cells the commit
ran against. -/
theorem undoApplyEntry_commitCells {V : Type} [DecidableEq V]
    {cells : List (Slot V)} {op : HistoryOp V} (h : HonestOp cells op) :
    (MapLayoutHistory.undoApplyEntry (commitCells cells op) (entryOf op)).1 =
      cells := by
  cases op with
  | changeAttribute idx a w b =>
    obtain ⟨⟨c, hc, hw⟩, _, _⟩ := h
    have hlt : idx < cells.length := lt_length_of_jsGet_cell hc
    have hcom : commitCells cells (.changeAttribute idx a w b) =
        cells.set idx (.cell (setAttr c a b)) := by
      simp [commitCells, hc]
    rw [hcom]
    show (MapLayoutHistory.undoApplyEntry
      (cells.set idx (.cell (setAttr c a b)))
      (.changeAttribute idx a w b)).1 = cells
    have hg : jsGet (cells.set idx (.cell (setAttr c a b))) idx =
        .cell (setAttr c a b) := jsGet_set_self cells idx _ hlt
    simp only [MapLayoutHistory.undoApplyEntry, hg]
    show (cells.set idx (Slot.cell (setAttr c a b))).set idx
      (Slot.cell (setAttr (setAttr c a b) a w)) = cells
    rw [set_set_self, setAttr_setAttr, hw, setAttr_getAttr_self c a, ← hc]
    exact set_jsGet_self cells idx hlt
  | changeAttributes idxs a ws bs =>
    obtain ⟨hws, hbs, htgt, hwsne, hbsne⟩ := h
    have hloop := changeAttributesLoop_honest a cells (· ∈ idxs) idxs bs
      cells ⟨rfl, fun p => Or.inl rfl⟩ (fun i hi => hi)
      (honest_targets_cell htgt)
    show (MapLayoutHistory.undoChangeAttributesLoop
      (MapLayoutHistory.changeAttributesLoop cells idxs a bs).1 idxs a ws).1 =
      cells
    exact undoChangeAttributesLoop_restores a cells idxs ws _
      hloop.2.2.1 htgt hloop.2.2.2
  | swapCell idx w b =>
    obtain ⟨hw, hlt⟩ := h
    show jsSet (jsSet cells idx (toSlot b)) idx (toSlot w) = cells
    rw [jsSet_eq_set cells idx _ hlt]
    have hlt2 : idx < (cells.set idx (toSlot b)).length := by
      rw [List.length_set]; exact hlt
    rw [jsSet_eq_set _ idx _ hlt2, set_set_self, hw]
    exact set_jsGet_self cells idx hlt
  | swapCells idxs ws bs =>
    obtain ⟨hws, hbs, htgt⟩ := h
    have hb : ∀ i ∈ idxs, i < cells.length := honest_swap_bounds htgt
    have hlo := writeCellsLoop_length_outside idxs bs cells hb
    have hcom : commitCells cells (.swapCells idxs ws bs) =
        MapLayoutHistory.writeCellsLoop cells idxs bs := by
      show (MapLayoutHistory.swapCellsLoop cells idxs bs).1 = _
      rw [swapCellsLoop_eq_write idxs bs cells (by omega)]
    rw [hcom]
    show MapLayoutHistory.writeCellsLoop
      (MapLayoutHistory.writeCellsLoop cells idxs bs) idxs ws = cells
    refine writeCellsLoop_restores cells idxs ws _ hlo.1 (by omega) htgt
      (fun p => ?_)
    by_cases hp : p ∈ idxs
    · exact Or.inr hp
    · exact Or.inl (hlo.2 p hp)

/-- Redoing an honest commit's logged entry re-applies the commit's cells
mutation and advances the cursor. -/
theorem redoApplyEntry_honest {V : Type} [DecidableEq V]
    (s : MapLayoutHistory V) (op : HistoryOp V) (h : HonestOp s.cells op) :
    MapLayoutHistory.redoApplyEntry s (entryOf op) =
      ({ s with cells := commitCells s.cells op, i := s.i + 1 },
        false, []) := by
  cases op with
  | changeAttribute idx a w b =>
    obtain ⟨⟨c, hc, hw⟩, _, _⟩ := h
    have hcom : commitCells s.cells (.changeAttribute idx a w b) =
        s.cells.set idx (.cell (setAttr c a b)) := by
      simp [commitCells, hc]
    show MapLayoutHistory.redoApplyEntry s (.changeAttribute idx a w b) = _
    simp only [MapLayoutHistory.redoApplyEntry]
    rw [hc, hcom]
  | changeAttributes idxs a ws bs =>
    obtain ⟨hws, hbs, htgt, hwsne, hbsne⟩ := h
    have hloop := changeAttributesLoop_honest a s.cells (· ∈ idxs) idxs bs
      s.cells ⟨rfl, fun p => Or.inl rfl⟩ (fun i hi => hi)
      (honest_targets_cell htgt)
    show MapLayoutHistory.redoApplyEntry s (.changeAttributes idxs a ws bs) = _
    simp only [MapLayoutHistory.redoApplyEntry]
    rw [hloop.2.1]
    rfl
  | swapCell idx w b => rfl
  | swapCells idxs ws bs =>
    obtain ⟨hws, hbs, htgt⟩ := h
    have hcom : commitCells s.cells (.swapCells idxs ws bs) =
        MapLayoutHistory.writeCellsLoop s.cells idxs bs := by
      show (MapLayoutHistory.swapCellsLoop s.cells idxs bs).1 = _
      rw [swapCellsLoop_eq_write idxs bs s.cells (by omega)]
    show MapLayoutHistory.redoApplyEntry s (.swappedCells idxs ws bs) = _
    rw [hcom]
    rfl

theorem get?_append_cons {α : Type} (H : List α) (e : α) (E : List α) :
    (H ++ e :: E).get? H.length = some e := by
  induction H with
  | nil => rfl
  | cons a as ih => exact ih

theorem getElem_append_len {α : Type} (H : List α) (e : α) (E : List α)
    (h : H.length < (H ++ e :: E).length) : (H ++ e :: E)[H.length] = e := by
  induction H with
  | nil => rfl
  | cons a as ih => exact ih (by simp)

/-- One `undo` from a cursor sitting right after the entry `e`. -/
theorem undo_append_cons {V : Type} [DecidableEq V] (cells2 cellsPrev : List (Slot V))
    (H E : List (MapLayoutHistoryEntry V)) (e : MapLayoutHistoryEntry V)
    (hApply : (MapLayoutHistory.undoApplyEntry cells2 e).1 = cellsPrev) :
    (MapLayoutHistory.undo
      (⟨cells2, H ++ e :: E, H.length + 1⟩ : MapLayoutHistory V)).1 =
      ⟨cellsPrev, H ++ e :: E, H.length⟩ := by
  have hg := get?_append_cons H e E
  simp only [MapLayoutHistory.undo, MapLayoutHistory.undoCursor]
  simp [hg]
  rw [getElem_append_len H e E (by simp)]
  exact hApply

/-- One `redo` from a cursor sitting right before the entry `e`. -/
theorem redo_append_cons {V : Type} [DecidableEq V] (cells2 : List (Slot V))
    (H E : List (MapLayoutHistoryEntry V)) (e : MapLayoutHistoryEntry V) :
    MapLayoutHistory.redo
      (⟨cells2, H ++ e :: E, H.length⟩ : MapLayoutHistory V) =
      MapLayoutHistory.redoApplyEntry
        (⟨cells2, H ++ e :: E, H.length⟩ : MapLayoutHistory V) e := by
  have hg := get?_append_cons H e E
  simp only [MapLayoutHistory.redo]
  simp [hg]
  rw [getElem_append_len H e E (by simp)]

/-- Honest commit sequences succeed and produce the expected final state:
the folded cells mutations, the log extended with the corresponding
entries, and the cursor at the end of the log. -/
theorem applyCommits_honest {V : Type} [DecidableEq V] :
    ∀ (ops : List (HistoryOp V)) (H : List (MapLayoutHistoryEntry V))
      (cells : List (Slot V)), HonestSeq cells ops →
    applyCommits (⟨cells, H, H.length⟩ : MapLayoutHistory V) ops =
      ⟨List.foldl commitCells cells ops, H ++ ops.map entryOf,
        (H ++ ops.map entryOf).length⟩
    ∧ SeqOk (⟨cells, H, H.length⟩ : MapLayoutHistory V) ops := by
  intro ops
  induction ops with
  | nil =>
    intro H cells _
    exact ⟨by simp [applyCommits], trivial⟩
  | cons op rest ih =>
    intro H cells h
    obtain ⟨hop, hrest⟩ := h
    have hcommit := applyCommit_honest ⟨cells, H, H.length⟩ op rfl hop
    have hlen : H.length + 1 = (H ++ [entryOf op]).length := by simp
    have ihr := ih (H ++ [entryOf op]) (commitCells cells op) hrest
    constructor
    · show applyCommits (applyCommit ⟨cells, H, H.length⟩ op).1 rest = _
      rw [hcommit]
      show applyCommits
        (⟨commitCells cells op, H ++ [entryOf op], H.length + 1⟩ :
          MapLayoutHistory V) rest = _
      rw [hlen, ihr.1]
      simp [List.append_assoc]
    · refine ⟨by rw [hcommit], ?_⟩
      show SeqOk (applyCommit ⟨cells, H, H.length⟩ op).1 rest
      rw [hcommit]
      show SeqOk
        (⟨commitCells cells op, H ++ [entryOf op], H.length + 1⟩ :
          MapLayoutHistory V) rest
      rw [hlen]
      exact ihr.2

/-- Undoing an honest commit sequence entry by entry restores the starting
cells, leaving the log intact and the cursor back where it began. -/
theorem iterUndo_honest {V : Type} [DecidableEq V] :
    ∀ (ops : List (HistoryOp V)) (H : List (MapLayoutHistoryEntry V))
      (cells : List (Slot V)), HonestSeq cells ops →
    iterUndo ops.length
      (⟨List.foldl commitCells cells ops, H ++ ops.map entryOf,
        (H ++ ops.map entryOf).length⟩ : MapLayoutHistory V) =
      ⟨cells, H ++ ops.map entryOf, H.length⟩ := by
  intro ops
  induction ops with
  | nil =>
    intro H cells _
    simp [iterUndo]
  | cons op rest ih =>
    intro H cells h
    obtain ⟨hop, hrest⟩ := h
    have hS : (⟨List.foldl commitCells cells (op :: rest),
        H ++ (op :: rest).map entryOf,
        (H ++ (op :: rest).map entryOf).length⟩ : MapLayoutHistory V) =
        ⟨List.foldl commitCells (commitCells cells op) rest,
          (H ++ [entryOf op]) ++ rest.map entryOf,
          ((H ++ [entryOf op]) ++ rest.map entryOf).length⟩ := by
      simp [List.append_assoc]
    show iterUndo (rest.length + 1) _ = _
    unfold iterUndo
    rw [hS, ih (H ++ [entryOf op]) (commitCells cells op) hrest]
    have h2 : (⟨commitCells cells op,
        (H ++ [entryOf op]) ++ rest.map entryOf,
        (H ++ [entryOf op]).length⟩ : MapLayoutHistory V) =
        ⟨commitCells cells op, H ++ entryOf op :: rest.map entryOf,
          H.length + 1⟩ := by
      simp [List.append_assoc]
    rw [h2, undo_append_cons (commitCells cells op) cells H
      (rest.map entryOf) (entryOf op) (undoApplyEntry_commitCells hop)]
    simp

/-- Redoing an honest commit sequence entry by entry re-applies all its
cells mutations and moves the cursor back to the end of the log. -/
theorem iterRedo_honest {V : Type} [DecidableEq V] :
    ∀ (ops : List (HistoryOp V)) (H : List (MapLayoutHistoryEntry V))
      (cells : List (Slot V)), HonestSeq cells ops →
    iterRedo ops.length
      (⟨cells, H ++ ops.map entryOf, H.length⟩ : MapLayoutHistory V) =
      ⟨List.foldl commitCells cells ops, H ++ ops.map entryOf,
        (H ++ ops.map entryOf).length⟩ := by
  intro ops
  induction ops with
  | nil =>
    intro H cells _
    simp [iterRedo]
  | cons op rest ih =>
    intro H cells h
    obtain ⟨hop, hrest⟩ := h
    show iterRedo (rest.length + 1) _ = _
    unfold iterRedo
    have hS : (⟨cells, H ++ (op :: rest).map entryOf, H.length⟩ :
        MapLayoutHistory V) =
        ⟨cells, H ++ entryOf op :: rest.map entryOf, H.length⟩ := by
      simp
    rw [hS, redo_append_cons cells H (rest.map entryOf) (entryOf op),
      redoApplyEntry_honest _ op hop]
    have h2 : (⟨commitCells cells op, H ++ entryOf op :: rest.map entryOf,
        H.length + 1⟩ : MapLayoutHistory V) =
        ⟨commitCells cells op, (H ++ [entryOf op]) ++ rest.map entryOf,
          (H ++ [entryOf op]).length⟩ := by
      simp [List.append_assoc]
    rw [h2, ih (H ++ [entryOf op]) (commitCells cells op) hrest]
    simp [List.append_assoc]

/-- C1 counterexample: with a fresh history over one cell whose `name` is
value 0, the single commit `changeAttribute(0, name, was := 1, became := 2)`
succeeds (the code never checks the supplied old value), yet one `undo`
writes the caller-supplied `was` 1 — not the true prior value 0 — so the
model is not restored to its pre-commit state. -/
theorem claim1_counterexample :
    (applyCommit (⟨[Slot.cell ⟨.val 0, .val 0, .undef⟩], [], 0⟩ :
      MapLayoutHistory Nat)
      (.changeAttribute 0 .name (.val 1) (.val 2))).2 = false
    ∧ (iterUndo 1 (applyCommits
        (⟨[Slot.cell ⟨.val 0, .val 0, .undef⟩], [], 0⟩ : MapLayoutHistory Nat)
        [.changeAttribute 0 .name (.val 1) (.val 2)])).cells ≠
      [Slot.cell ⟨.val 0, .val 0, .undef⟩] := by
  decide

/-- C1 as amended: for every sequence of well-formed commits from a fresh
history — each call's supplied old values equal the model's current values
at its target indices, attribute targets hold cells and swap indices are in
bounds, batched arrays are parallel, and all supplied values are defined —
every commit succeeds (nothing throws), `undo` once per commit restores the
cells to their exact pre-sequence state, and `redo` once per commit then
restores the exact post-sequence cells. -/
theorem claim1_undo_redo_inverse (V : Type) [DecidableEq V]
    (cells : List (Slot V)) (ops : List (HistoryOp V))
    (h : HonestSeq cells ops) :
    SeqOk (⟨cells, [], 0⟩ : MapLayoutHistory V) ops
    ∧ (iterUndo ops.length
        (applyCommits (⟨cells, [], 0⟩ : MapLayoutHistory V) ops)).cells =
      cells
    ∧ (iterRedo ops.length (iterUndo ops.length
        (applyCommits (⟨cells, [], 0⟩ : MapLayoutHistory V) ops))).cells =
      (applyCommits (⟨cells, [], 0⟩ : MapLayoutHistory V) ops).cells := by
  have hM := applyCommits_honest ops [] cells h
  have hApply : applyCommits (⟨cells, [], 0⟩ : MapLayoutHistory V) ops =
      ⟨List.foldl commitCells cells ops, ops.map entryOf,
        (ops.map entryOf).length⟩ := by
    have h1 := hM.1
    simpa using h1
  have hU : iterUndo ops.length
      (⟨List.foldl commitCells cells ops, ops.map entryOf,
        (ops.map entryOf).length⟩ : MapLayoutHistory V) =
      ⟨cells, ops.map entryOf, 0⟩ := by
    have h2 := iterUndo_honest ops [] cells h
    simpa using h2
  have hR : iterRedo ops.length
      (⟨cells, ops.map entryOf, 0⟩ : MapLayoutHistory V) =
      ⟨List.foldl commitCells cells ops, ops.map entryOf,
        (ops.map entryOf).length⟩ := by
    have h3 := iterRedo_honest ops [] cells h
    simpa using h3
  refine ⟨hM.2, ?_, ?_⟩
  · rw [hApply, hU]
  · rw [hApply, hU, hR]

/-- C1 witness: the amended inverse law at a concrete two-commit sequence
(an honest attribute change followed by an honest cell swap) over a
one-cell grid. -/
theorem claim1_witness :
    (iterUndo 2 (applyCommits
      (⟨[Slot.cell ⟨.val 5, .val 0, .undef⟩], [], 0⟩ : MapLayoutHistory Nat)
      [.changeAttribute 0 .name (.val 5) (.val 7),
        .swapCell 0 (some ⟨.val 7, .val 0, .undef⟩) none])).cells =
      [Slot.cell ⟨.val 5, .val 0, .undef⟩]
    ∧ (iterRedo 2 (iterUndo 2 (applyCommits
      (⟨[Slot.cell ⟨.val 5, .val 0, .undef⟩], [], 0⟩ : MapLayoutHistory Nat)
      [.changeAttribute 0 .name (.val 5) (.val 7),
        .swapCell 0 (some ⟨.val 7, .val 0, .undef⟩) none]))).cells =
      (applyCommits
        (⟨[Slot.cell ⟨.val 5, .val 0, .undef⟩], [], 0⟩ : MapLayoutHistory Nat)
        [.changeAttribute 0 .name (.val 5) (.val 7),
          .swapCell 0 (some ⟨.val 7, .val 0, .undef⟩) none]).cells := by
  have h := claim1_undo_redo_inverse Nat
    [Slot.cell ⟨.val 5, .val 0, .undef⟩]
    [.changeAttribute 0 .name (.val 5) (.val 7),
      .swapCell 0 (some ⟨.val 7, .val 0, .undef⟩) none]
    ⟨⟨⟨⟨.val 5, .val 0, .undef⟩, rfl, rfl⟩, by decide, by decide⟩,
      ⟨rfl, by decide⟩, trivial⟩
  exact ⟨h.2.1, h.2.2⟩
